import Mathlib

/-!
Verification of the character-sheet parser (`src/parser.py`, class
`CharacterParser`) against its natural-language specification.

Strings are modelled as `List Char`; Python's `str.replace` (for the nonempty
patterns the source uses), `str.split()` (whitespace split), `' '.join`,
`str.strip()`, `str.capitalize()`, `str.title()` and `sorted` are embedded as
executable Lean functions.  Each extractor of `CharacterParser` is translated
from the source; policy tables (tag/entity substitution chains, the ability-id
table, exclusion sets, the Echo Knight level gates) are transcribed literally.
-/

/-- Worker for `replaceL`: `skip` counts characters still to be skipped past
the most recent replacement.  Structurally recursive on the text so that it
evaluates inside the kernel. -/
def repGo (pat rep : List Char) : Nat → List Char → List Char
  | _, [] => []
  | Nat.succ n, _ :: cs => repGo pat rep n cs
  | 0, c :: cs =>
    if pat ≠ [] ∧ pat.isPrefixOf (c :: cs) then
      rep ++ repGo pat rep (pat.length - 1) cs
    else
      c :: repGo pat rep 0 cs

/-- Python `str.replace(pat, rep)` for a nonempty pattern `pat`: scan left to
right, replace every non-overlapping occurrence, skipping past each
replacement.  (All patterns used by the source are nonempty; for an empty
pattern this returns the input unchanged.) -/
def replaceL (pat rep : List Char) (l : List Char) : List Char :=
  repGo pat rep 0 l

/-- A chain of `str.replace` calls, applied in order. -/
def applyRules (rules : List (List Char × List Char)) (l : List Char) : List Char :=
  rules.foldl (fun s r => replaceL r.1 r.2 s) l

/-- The whitespace characters of Python's `str.split()` / `str.strip()`
(Unicode whitespace as recognized by CPython's `str.isspace`). -/
def pySpaceChars : List Char :=
  ['\t', '\n', '\x0B', '\x0C', '\r', '\x1C', '\x1D', '\x1E', '\x1F', ' ',
   '\x85', '\u00A0', '\u1680', '\u2000', '\u2001', '\u2002', '\u2003', '\u2004',
   '\u2005', '\u2006', '\u2007', '\u2008', '\u2009', '\u200A', '\u2028', '\u2029',
   '\u202F', '\u205F', '\u3000']

/-- Whether a character counts as whitespace for Python's `str.split()`. -/
def isPySpace (c : Char) : Bool := pySpaceChars.contains c

/-- Python `str.split()` with no argument: the maximal runs of
non-whitespace characters, in order; no empty words. -/
def pyWords : List Char → List (List Char)
  | [] => []
  | c :: cs =>
    if isPySpace c then pyWords cs
    else
      match cs, pyWords cs with
      | [], _ => [[c]]
      | d :: _, ws =>
        if isPySpace d then [c] :: ws
        else
          match ws with
          | w :: ws1 => (c :: w) :: ws1
          | [] => [[c]]

/-- Python `' '.join(ws)`: the words joined with single spaces. -/
def joinWords : List (List Char) → List Char
  | [] => []
  | [w] => w
  | w :: ws => w ++ ' ' :: joinWords ws

/-- Python `str.strip()`: drop leading and trailing whitespace. -/
def stripL (l : List Char) : List Char :=
  ((l.dropWhile isPySpace).reverse.dropWhile isPySpace).reverse

/-- The substitution chain of `CharacterParser._clean_text` up to and
including the Unicode-character table (source lines 104-129), in source
order. -/
def uRulesMain : List (List Char × List Char) :=
  [("<p class=\"Core-Styles_Core-Body\">".data, "".data),
   ("<p class=\"Core-Styles_Core-Body--Extra-Space-After-\">".data, "".data),
   ("<span class=\"No-Break\">".data, "".data),
   ("<span class=\"Serif-Character-Style_Italic-Serif\">".data, "".data),
   ("</span>".data, "".data),
   ("</p>".data, "".data),
   ("<p>".data, "".data),
   ("<br />".data, " ".data),
   ("&ldquo;".data, "\"".data),
   ("&rdquo;".data, "\"".data),
   ("&mdash;".data, "-".data),
   ("&nbsp;".data, " ".data),
   ("&ucirc;".data, "u".data),
   ("&rsquo;".data, "'".data),
   ("&lsquo;".data, "'".data),
   ("\u2019".data, "'".data),
   ("\u2018".data, "'".data),
   ("\u201C".data, "\"".data),
   ("\u201D".data, "\"".data),
   ("\u2014".data, "-".data),
   ("\u2022".data, "\u2022".data),
   ("\u00A0".data, " ".data)]

/-- The line-ending normalization of `_clean_text` (source lines 132-133). -/
def uRulesNl : List (List Char × List Char) :=
  [("\r\n".data, " ".data), ("\n".data, " ".data)]

/-- `CharacterParser._clean_text`: the full substitution chain, then
`' '.join(text.split())`, then `strip()`; a falsy (empty) input yields the
empty string. -/
def _clean_text (l : List Char) : List Char :=
  if l = [] then []
  else stripL (joinWords (pyWords (applyRules (uRulesMain ++ uRulesNl) l)))

/-- The substitution chain of `CharacterParser.clean_text` up to and
including the Unicode-character table (source lines 174-217), in source
order: the No-Break span and `</span>` first, then the `html_tags` list,
then the `html_entities` table, then the `unicode_map` table. -/
def cRulesMain : List (List Char × List Char) :=
  [("<span class=\"No-Break\">".data, "".data),
   ("</span>".data, "".data),
   ("<p>".data, "".data),
   ("</p>".data, "".data),
   ("<br />".data, "".data),
   ("<ul>".data, "".data),
   ("</ul>".data, "".data),
   ("<li>".data, "".data),
   ("</li>".data, "".data),
   ("<strong>".data, "".data),
   ("</strong>".data, "".data),
   ("<em>".data, "".data),
   ("</em>".data, "".data),
   ("<span class=\"Serif-Character-Style_Bold-Serif\">".data, "".data),
   ("<span class=\"Serif-Character-Style_Italic-Serif\">".data, "".data),
   ("<p class=\"Core-Styles_Core-Body\">".data, "".data),
   ("<p class=\"Core-Styles_Core-Body--Extra-Space-After-\">".data, "".data),
   ("<div class=\"mastery-container\">".data, "".data),
   ("</div>".data, "".data),
   ("<hr />".data, "".data),
   ("&ldquo;".data, "\"".data),
   ("&rdquo;".data, "\"".data),
   ("&ucirc;".data, "u".data),
   ("&mdash;".data, "-".data),
   ("&nbsp;".data, " ".data),
   ("\u2019".data, "'".data),
   ("\u2018".data, "'".data),
   ("\u201C".data, "\"".data),
   ("\u201D".data, "\"".data),
   ("\u2014".data, "-".data),
   ("\u2013".data, "-".data),
   ("\u2022".data, "\u2022".data),
   ("\u2026".data, "...".data),
   ("\u00A0".data, " ".data),
   ("\u00E9".data, "e".data),
   ("\u00FB".data, "u".data),
   ("\u2212".data, "-".data)]

/-- The line-ending normalization of `clean_text` (source lines 220-222). -/
def cRulesNl : List (List Char × List Char) :=
  [("\r\n".data, " ".data), ("\n".data, " ".data), ("\r".data, " ".data)]

/-- `CharacterParser.clean_text`: the full substitution chain, then
`' '.join(text.split())`; a falsy (empty) input yields the empty string. -/
def clean_text (l : List Char) : List Char :=
  if l = [] then []
  else joinWords (pyWords (applyRules (cRulesMain ++ cRulesNl) l))

/-- Sanity check mirroring the spec's end-to-end example for single-line
cleaning. -/
example :
    clean_text "<p class=\"Core-Styles_Core-Body\">Test <em>text</em> with <strong>tags</strong></p>".data
      = "Test text with tags".data := by decide

example : clean_text "a&rdquo;b&ldquo;c&mdash;d".data = "a\"b\"c-d".data := by decide

example : _clean_text "  Hello — <p>world</p>\r\nagain  ".data = "Hello - world again".data := by
  decide

/-! Basic facts about `replaceL` and `applyRules`. -/

theorem repGo_succ (pat rep : List Char) (n : Nat) (c : Char) (cs : List Char) :
    repGo pat rep (n + 1) (c :: cs) = repGo pat rep n cs := rfl

theorem repGo_skip (pat rep : List Char) :
    ∀ (l : List Char) (n : Nat), repGo pat rep n l = replaceL pat rep (l.drop n) := by
  intro l
  induction l with
  | nil => intro n; cases n <;> rfl
  | cons c cs ih =>
    intro n
    cases n with
    | zero => rfl
    | succ n => rw [repGo_succ, ih n, List.drop_succ_cons]

theorem ipf_split (p : List Char) :
    ∀ (a b : List Char), p.isPrefixOf (a ++ b) = true →
      p.isPrefixOf a = true ∨ a.isPrefixOf p = true := by
  intro a
  induction a generalizing p with
  | nil => intro b _; right; cases p <;> rfl
  | cons x a' ih =>
    intro b h
    cases p with
    | nil => left; rfl
    | cons y p' =>
      simp only [List.cons_append, List.isPrefixOf, Bool.and_eq_true, beq_iff_eq] at h ⊢
      rcases h with ⟨rfl, h2⟩
      rcases ih p' b h2 with h3 | h4
      · exact Or.inl ⟨rfl, h3⟩
      · exact Or.inr ⟨rfl, h4⟩

theorem ipf_subset {p l : List Char} (h : p.isPrefixOf l = true) : ∀ a ∈ p, a ∈ l :=
  fun _ ha => (List.isPrefixOf_iff_prefix.mp h).subset ha

theorem replaceL_cons_pos {pat : List Char} (rep : List Char) {c : Char} {cs : List Char}
    (h1 : pat ≠ []) (h2 : pat.isPrefixOf (c :: cs) = true) :
    replaceL pat rep (c :: cs) = rep ++ replaceL pat rep ((c :: cs).drop pat.length) := by
  show repGo pat rep 0 (c :: cs) = _
  rw [repGo, if_pos ⟨h1, h2⟩, repGo_skip]
  cases pat with
  | nil => exact absurd rfl h1
  | cons p ps => simp [List.drop_succ_cons]

theorem replaceL_cons_neg {pat : List Char} (rep : List Char) {c : Char} {cs : List Char}
    (h : ¬(pat ≠ [] ∧ pat.isPrefixOf (c :: cs) = true)) :
    replaceL pat rep (c :: cs) = c :: replaceL pat rep cs := by
  show repGo pat rep 0 (c :: cs) = _
  rw [repGo, if_neg h]
  rfl

theorem mem_replaceL {a : Char} (pat rep : List Char) :
    ∀ l, a ∈ replaceL pat rep l → a ∈ l ∨ a ∈ rep := by
  have H : ∀ (n : Nat) (l : List Char), l.length ≤ n →
      a ∈ replaceL pat rep l → a ∈ l ∨ a ∈ rep := by
    intro n
    induction n with
    | zero =>
      intro l hl
      rw [List.length_eq_zero.mp (Nat.le_zero.mp hl)]
      intro h; cases h
    | succ n ih =>
      intro l hl hm
      cases l with
      | nil => cases hm
      | cons c cs =>
        by_cases hg : pat ≠ [] ∧ pat.isPrefixOf (c :: cs) = true
        · rw [replaceL_cons_pos rep hg.1 hg.2] at hm
          rcases List.mem_append.mp hm with h1 | h2
          · exact Or.inr h1
          · have hp : 0 < pat.length := List.length_pos.mpr hg.1
            have hlen : ((c :: cs).drop pat.length).length ≤ n := by
              simp only [List.length_cons] at hl
              simp only [List.length_drop, List.length_cons]
              omega
            rcases ih _ hlen h2 with h3 | h4
            · exact Or.inl (List.mem_of_mem_drop h3)
            · exact Or.inr h4
        · rw [replaceL_cons_neg rep hg] at hm
          rcases List.mem_cons.mp hm with h1 | h2
          · exact Or.inl (h1 ▸ List.mem_cons_self c cs)
          · have hlen : cs.length ≤ n := by simp at hl; omega
            rcases ih _ hlen h2 with h3 | h4
            · exact Or.inl (List.mem_cons_of_mem c h3)
            · exact Or.inr h4
  exact fun l => H l.length l (Nat.le_refl _)

theorem replaceL_absent {a : Char} {pat : List Char} (rep : List Char) (ha : a ∈ pat) :
    ∀ l, a ∉ l → replaceL pat rep l = l := by
  have H : ∀ (n : Nat) (l : List Char), l.length ≤ n → a ∉ l → replaceL pat rep l = l := by
    intro n
    induction n with
    | zero =>
      intro l hl _
      rw [List.length_eq_zero.mp (Nat.le_zero.mp hl)]
      rfl
    | succ n ih =>
      intro l hl hal
      cases l with
      | nil => rfl
      | cons c cs =>
        have hg : ¬(pat ≠ [] ∧ pat.isPrefixOf (c :: cs) = true) := by
          rintro ⟨_, h2⟩
          exact hal (ipf_subset h2 a ha)
        rw [replaceL_cons_neg rep hg]
        have : cs.length ≤ n := by simp at hl; omega
        rw [ih cs this (fun h => hal (List.mem_cons_of_mem c h))]
  exact fun l => H l.length l (Nat.le_refl _)

theorem replaceL_self (pat : List Char) : ∀ l, replaceL pat pat l = l := by
  have H : ∀ (n : Nat) (l : List Char), l.length ≤ n → replaceL pat pat l = l := by
    intro n
    induction n with
    | zero =>
      intro l hl
      rw [List.length_eq_zero.mp (Nat.le_zero.mp hl)]
      rfl
    | succ n ih =>
      intro l hl
      cases l with
      | nil => rfl
      | cons c cs =>
        by_cases hg : pat ≠ [] ∧ pat.isPrefixOf (c :: cs) = true
        · rw [replaceL_cons_pos pat hg.1 hg.2]
          obtain ⟨t, ht⟩ := List.isPrefixOf_iff_prefix.mp hg.2
          have hdrop : (c :: cs).drop pat.length = t := by
            rw [← ht, List.drop_left]
          rw [hdrop]
          have hlt : t.length ≤ n := by
            have hlen := congrArg List.length ht
            simp only [List.length_append, List.length_cons] at hlen
            simp only [List.length_cons] at hl
            have hp : 0 < pat.length := List.length_pos.mpr hg.1
            omega
          rw [ih t hlt, ht]
        · rw [replaceL_cons_neg pat hg]
          have : cs.length ≤ n := by simp at hl; omega
          rw [ih cs this]
  exact fun l => H l.length l (Nat.le_refl _)

/-- `safeB pat s` states that no occurrence of `pat` can start inside `s`,
whatever text follows `s`: no suffix of `s` has `pat` as a prefix, and no
nonempty suffix of `s` is a prefix of `pat`. -/
def safeB (pat : List Char) : List Char → Bool
  | [] => true
  | c :: cs => !(pat.isPrefixOf (c :: cs)) && !((c :: cs).isPrefixOf pat) && safeB pat cs

theorem replaceL_append_safe {pat : List Char} (rep : List Char) :
    ∀ (s T : List Char), safeB pat s = true →
      replaceL pat rep (s ++ T) = s ++ replaceL pat rep T := by
  intro s
  induction s with
  | nil => intro T _; rfl
  | cons c s' ih =>
    intro T hs
    simp only [safeB, Bool.and_eq_true, Bool.not_eq_true'] at hs
    obtain ⟨⟨h1, h2⟩, h3⟩ := hs
    have hg : ¬(pat ≠ [] ∧ pat.isPrefixOf (c :: (s' ++ T)) = true) := by
      rintro ⟨_, hp⟩
      have hp2 : pat.isPrefixOf ((c :: s') ++ T) = true := by
        simpa using hp
      rcases ipf_split pat (c :: s') T hp2 with h4 | h5
      · rw [h4] at h1; cases h1
      · rw [h5] at h2; cases h2
    simp only [List.cons_append]
    rw [replaceL_cons_neg rep hg, ih T h3]

theorem replaceL_consume {pat : List Char} (rep : List Char) (T : List Char) (h : pat ≠ []) :
    replaceL pat rep (pat ++ T) = rep ++ replaceL pat rep T := by
  cases pat with
  | nil => exact absurd rfl h
  | cons p ps =>
    have hpre : (p :: ps).isPrefixOf (p :: (ps ++ T)) = true := by
      have := List.isPrefixOf_iff_prefix.mpr (List.prefix_append (p :: ps) T)
      simpa using this
    rw [List.cons_append, replaceL_cons_pos rep (by simp) hpre]
    congr 1
    have hd : (p :: (ps ++ T)).drop (p :: ps).length = T := by
      have := List.drop_left (p :: ps) T
      simpa using this
    rw [hd]

theorem replaceL_single_elim {c : Char} {rep : List Char} (hc : c ∉ rep) :
    ∀ l, c ∉ replaceL [c] rep l := by
  intro l
  induction l with
  | nil => intro h; cases h
  | cons d ds ih =>
    by_cases hg : ([c] : List Char) ≠ [] ∧ ([c] : List Char).isPrefixOf (d :: ds) = true
    · rw [replaceL_cons_pos rep hg.1 hg.2]
      intro hm
      rcases List.mem_append.mp hm with h1 | h2
      · exact hc h1
      · exact ih (by simpa using h2)
    · rw [replaceL_cons_neg rep hg]
      intro hm
      rcases List.mem_cons.mp hm with h1 | h2
      · apply hg
        refine ⟨by simp, ?_⟩
        simp [List.isPrefixOf, h1]
      · exact ih h2

theorem applyRules_cons (r : List Char × List Char) (rs : List (List Char × List Char))
    (l : List Char) : applyRules (r :: rs) l = applyRules rs (replaceL r.1 r.2 l) := rfl

theorem applyRules_append_rules (rs1 rs2 : List (List Char × List Char)) (l : List Char) :
    applyRules (rs1 ++ rs2) l = applyRules rs2 (applyRules rs1 l) := by
  unfold applyRules
  exact List.foldl_append _ _ _ _

theorem mem_applyRules {a : Char} :
    ∀ (rules : List (List Char × List Char)) (l : List Char),
      a ∈ applyRules rules l → a ∈ l ∨ ∃ r ∈ rules, a ∈ r.2 := by
  intro rules
  induction rules with
  | nil => intro l h; exact Or.inl h
  | cons r rs ih =>
    intro l h
    rw [applyRules_cons] at h
    rcases ih _ h with h1 | ⟨r', hr', ha'⟩
    · rcases mem_replaceL r.1 r.2 l h1 with h2 | h3
      · exact Or.inl h2
      · exact Or.inr ⟨r, List.mem_cons_self r rs, h3⟩
    · exact Or.inr ⟨r', List.mem_cons_of_mem r hr', ha'⟩

theorem applyRules_id {okB : Char → Bool} :
    ∀ (rules : List (List Char × List Char)) (y : List Char),
      (∀ c ∈ y, okB c = true) →
      rules.all (fun r => (r.1 == r.2) || r.1.any (fun a => !(okB a))) = true →
      applyRules rules y = y := by
  intro rules
  induction rules with
  | nil => intro y _ _; rfl
  | cons r rs ih =>
    intro y hy hr
    simp only [List.all_cons, Bool.and_eq_true] at hr
    obtain ⟨hr1, hr2⟩ := hr
    have hstep : replaceL r.1 r.2 y = y := by
      rcases Bool.or_eq_true _ _ |>.mp hr1 with he | hex
      · rw [beq_iff_eq] at he
        rw [he]
        exact replaceL_self r.2 y
      · simp only [List.any_eq_true, Bool.not_eq_true'] at hex
        obtain ⟨a, ha, hna⟩ := hex
        refine replaceL_absent r.2 ha y (fun hval => ?_)
        rw [hy a hval] at hna
        cases hna
    rw [applyRules_cons, hstep]
    exact ih y hy hr2

/-! Facts about `pyWords`, `joinWords` and `stripL`. -/

theorem pw_space {c : Char} (cs : List Char) (h : isPySpace c = true) :
    pyWords (c :: cs) = pyWords cs := by
  simp [pyWords, h]

theorem pw_single {c : Char} (h : isPySpace c = false) : pyWords [c] = [[c]] := by
  simp [pyWords, h]

theorem pw_break {c d : Char} (t : List Char) (hc : isPySpace c = false)
    (hd : isPySpace d = true) : pyWords (c :: d :: t) = [c] :: pyWords (d :: t) := by
  simp [pyWords, hc, hd]

theorem pw_glue {c d : Char} {t w : List Char} {ws : List (List Char)}
    (hc : isPySpace c = false) (hd : isPySpace d = false)
    (hw : pyWords (d :: t) = w :: ws) : pyWords (c :: d :: t) = (c :: w) :: ws := by
  conv_lhs => rw [pyWords]
  simp only [hc, Bool.false_eq_true, if_false, hw, hd]

theorem pyWords_cons_shape : ∀ (t : List Char) (d : Char), isPySpace d = false →
    ∃ w ws, pyWords (d :: t) = (d :: w) :: ws := by
  intro t
  induction t with
  | nil => intro d hd; exact ⟨[], [], by rw [pw_single hd]⟩
  | cons e t' ih =>
    intro d hd
    by_cases he : isPySpace e = true
    · exact ⟨[], pyWords (e :: t'), by rw [pw_break t' hd he]⟩
    · rw [Bool.not_eq_true] at he
      obtain ⟨w, ws, hw⟩ := ih e he
      exact ⟨e :: w, ws, pw_glue hd he hw⟩

theorem pyWords_good : ∀ l : List Char, ∀ w ∈ pyWords l,
    w ≠ [] ∧ ∀ c ∈ w, isPySpace c = false := by
  intro l
  induction l with
  | nil => intro w hw; cases hw
  | cons c cs ih =>
    intro w hw
    by_cases hc : isPySpace c = true
    · rw [pw_space cs hc] at hw
      exact ih w hw
    · rw [Bool.not_eq_true] at hc
      cases cs with
      | nil =>
        rw [pw_single hc] at hw
        rcases List.mem_singleton.mp hw with rfl
        exact ⟨by simp, by intro x hx; rcases List.mem_singleton.mp hx with rfl; exact hc⟩
      | cons d t =>
        by_cases hd : isPySpace d = true
        · rw [pw_break t hc hd] at hw
          rcases List.mem_cons.mp hw with rfl | hw2
          · exact ⟨by simp, by intro x hx; rcases List.mem_singleton.mp hx with rfl; exact hc⟩
          · exact ih w hw2
        · rw [Bool.not_eq_true] at hd
          obtain ⟨w0, ws0, hpw⟩ := pyWords_cons_shape t d hd
          rw [pw_glue hc hd hpw] at hw
          rcases List.mem_cons.mp hw with rfl | hw2
          · have hgood := ih (d :: w0) (hpw ▸ List.mem_cons_self (d :: w0) ws0)
            refine ⟨by simp, ?_⟩
            intro x hx
            rcases List.mem_cons.mp hx with rfl | hx2
            · exact hc
            · exact hgood.2 x hx2
          · exact ih w (hpw ▸ List.mem_cons_of_mem (d :: w0) hw2)

theorem pw_word_sep : ∀ (w t : List Char), w ≠ [] → (∀ c ∈ w, isPySpace c = false) →
    pyWords (w ++ ' ' :: t) = w :: pyWords t := by
  intro w
  induction w with
  | nil => intro t h _; exact absurd rfl h
  | cons a w' ih =>
    intro t _ hns
    have ha : isPySpace a = false := hns a (List.mem_cons_self a w')
    cases w' with
    | nil =>
      have hsp : isPySpace ' ' = true := by decide
      show pyWords (a :: ' ' :: t) = [a] :: pyWords t
      rw [pw_break t ha hsp, pw_space t hsp]
    | cons b w'' =>
      have hb : isPySpace b = false := hns b (List.mem_cons_of_mem a (List.mem_cons_self b w''))
      have hrec := ih t (by simp) (fun c hc => hns c (List.mem_cons_of_mem a hc))
      simp only [List.cons_append] at hrec ⊢
      exact pw_glue ha hb hrec

theorem pw_word_only : ∀ (w : List Char), w ≠ [] → (∀ c ∈ w, isPySpace c = false) →
    pyWords w = [w] := by
  intro w
  induction w with
  | nil => intro h _; exact absurd rfl h
  | cons a w' ih =>
    intro _ hns
    have ha : isPySpace a = false := hns a (List.mem_cons_self a w')
    cases w' with
    | nil => exact pw_single ha
    | cons b w'' =>
      have hb : isPySpace b = false := hns b (List.mem_cons_of_mem a (List.mem_cons_self b w''))
      have hrec := ih (by simp) (fun c hc => hns c (List.mem_cons_of_mem a hc))
      exact pw_glue ha hb hrec

theorem pyWords_joinWords : ∀ ws : List (List Char),
    (∀ w ∈ ws, w ≠ [] ∧ ∀ c ∈ w, isPySpace c = false) → pyWords (joinWords ws) = ws := by
  intro ws
  induction ws with
  | nil => intro _; rfl
  | cons w ws' ih =>
    intro hg
    have hw := hg w (List.mem_cons_self w ws')
    cases ws' with
    | nil => exact pw_word_only w hw.1 hw.2
    | cons w2 rest =>
      show pyWords (w ++ ' ' :: joinWords (w2 :: rest)) = _
      rw [pw_word_sep w _ hw.1 hw.2]
      rw [ih (fun x hx => hg x (List.mem_cons_of_mem w hx))]

theorem jw_mem : ∀ (ws : List (List Char)) (c : Char),
    c ∈ joinWords ws → c = ' ' ∨ ∃ w ∈ ws, c ∈ w := by
  intro ws
  induction ws with
  | nil => intro c h; cases h
  | cons w ws' ih =>
    intro c h
    cases ws' with
    | nil =>
      exact Or.inr ⟨w, List.mem_cons_self w [], h⟩
    | cons w2 rest =>
      rcases List.mem_append.mp h with h1 | h2
      · exact Or.inr ⟨w, List.mem_cons_self w _, h1⟩
      · rcases List.mem_cons.mp h2 with rfl | h3
        · exact Or.inl rfl
        · rcases ih c h3 with h4 | ⟨w', hw', hc'⟩
          · exact Or.inl h4
          · exact Or.inr ⟨w', List.mem_cons_of_mem w hw', hc'⟩

theorem getLast?_mem : ∀ (l : List Char) (a : Char), l.getLast? = some a → a ∈ l := by
  intro l
  induction l with
  | nil => intro a h; cases h
  | cons b t ih =>
    intro a h
    cases t with
    | nil =>
      simp only [List.getLast?_singleton, Option.some.injEq] at h
      simp [h]
    | cons c t' =>
      rw [List.getLast?_cons_cons] at h
      exact List.mem_cons_of_mem b (ih a h)

theorem jw_head : ∀ (ws : List (List Char)),
    (∀ w ∈ ws, w ≠ [] ∧ ∀ c ∈ w, isPySpace c = false) →
    ∀ a, (joinWords ws).head? = some a → isPySpace a = false := by
  intro ws hg a ha
  cases ws with
  | nil => cases ha
  | cons w ws' =>
    have hw := hg w (List.mem_cons_self w ws')
    obtain ⟨x, w0, hww⟩ : ∃ x w0, w = x :: w0 := by
      cases w with
      | nil => exact absurd rfl hw.1
      | cons x w0 => exact ⟨x, w0, rfl⟩
    subst hww
    have hx : a = x := by
      cases ws' with
      | nil =>
        have ha2 : (x :: w0).head? = some a := ha
        simp only [List.head?_cons, Option.some.injEq] at ha2
        exact ha2.symm
      | cons w2 rest =>
        have ha2 : ((x :: w0) ++ ' ' :: joinWords (w2 :: rest)).head? = some a := ha
        simp only [List.cons_append, List.head?_cons, Option.some.injEq] at ha2
        exact ha2.symm
    rw [hx]
    exact hw.2 x (List.mem_cons_self x w0)

theorem jw_ne_nil : ∀ (ws : List (List Char)), ws ≠ [] →
    (∀ w ∈ ws, w ≠ [] ∧ ∀ c ∈ w, isPySpace c = false) → joinWords ws ≠ [] := by
  intro ws hne hg
  cases ws with
  | nil => exact absurd rfl hne
  | cons w ws' =>
    have hw := hg w (List.mem_cons_self w ws')
    cases ws' with
    | nil => exact hw.1
    | cons w2 rest =>
      show w ++ ' ' :: joinWords (w2 :: rest) ≠ []
      simp

theorem jw_last : ∀ (ws : List (List Char)),
    (∀ w ∈ ws, w ≠ [] ∧ ∀ c ∈ w, isPySpace c = false) →
    ∀ a, (joinWords ws).getLast? = some a → isPySpace a = false := by
  intro ws
  induction ws with
  | nil => intro _ a h; cases h
  | cons w ws' ih =>
    intro hg a ha
    cases ws' with
    | nil =>
      have hw := hg w (List.mem_cons_self w [])
      exact hw.2 a (getLast?_mem w a ha)
    | cons w2 rest =>
      have hg' : ∀ x ∈ w2 :: rest, x ≠ [] ∧ ∀ c ∈ x, isPySpace c = false :=
        fun x hx => hg x (List.mem_cons_of_mem w hx)
      have hjne : joinWords (w2 :: rest) ≠ [] := jw_ne_nil _ (by simp) hg'
      have ha2 : (w ++ ' ' :: joinWords (w2 :: rest)).getLast? = some a := ha
      rw [List.getLast?_append_cons w ' ' (joinWords (w2 :: rest))] at ha2
      obtain ⟨j, J', hJ⟩ : ∃ j J', joinWords (w2 :: rest) = j :: J' := by
        cases hJJ : joinWords (w2 :: rest) with
        | nil => exact absurd hJJ hjne
        | cons j J' => exact ⟨j, J', rfl⟩
      rw [hJ, List.getLast?_cons_cons] at ha2
      exact ih hg' a (by rw [hJ]; exact ha2)

theorem stripL_id : ∀ y : List Char,
    (∀ a, y.head? = some a → isPySpace a = false) →
    (∀ a, y.getLast? = some a → isPySpace a = false) → stripL y = y := by
  intro y h1 h2
  cases y with
  | nil => rfl
  | cons a t =>
    unfold stripL
    rw [List.dropWhile_cons_of_neg (by rw [h1 a rfl]; simp)]
    obtain ⟨b, hb⟩ : ∃ b, (a :: t).getLast? = some b := by
      cases hg : (a :: t).getLast? with
      | none => simp [List.getLast?_eq_none_iff] at hg
      | some b => exact ⟨b, rfl⟩
    obtain ⟨r, hr⟩ : ∃ r, (a :: t).reverse = b :: r := by
      have : (a :: t).reverse.head? = some b := by
        rw [List.head?_reverse]
        exact hb
      cases hrev : (a :: t).reverse with
      | nil => rw [hrev] at this; cases this
      | cons x r =>
        rw [hrev] at this
        simp only [List.head?_cons, Option.some.injEq] at this
        rw [this]
        exact ⟨r, rfl⟩
    rw [hr, List.dropWhile_cons_of_neg (by rw [h2 b hb]; simp), ← hr, List.reverse_reverse]

/-! No-double-space predicate and head/tail whitespace predicates, used to
state the single-line invariants of `clean_text`. -/

/-- True when the text never contains two consecutive spaces. -/
def noDouble : List Char → Bool
  | [] => true
  | [_] => true
  | a :: b :: t => !((a == ' ') && (b == ' ')) && noDouble (b :: t)

/-- True when the text does not start with a whitespace character. -/
def headNoSpace (y : List Char) : Bool :=
  match y.head? with
  | none => true
  | some a => !(isPySpace a)

/-- True when the text does not end with a whitespace character. -/
def lastNoSpace (y : List Char) : Bool :=
  match y.getLast? with
  | none => true
  | some a => !(isPySpace a)

theorem noDouble_cons_of_ne {a : Char} (ha : (a == ' ') = false) :
    ∀ y : List Char, noDouble y = true → noDouble (a :: y) = true := by
  intro y hy
  cases y with
  | nil => rfl
  | cons b t => simp [noDouble, ha, hy]

theorem noDouble_word_append : ∀ (w y : List Char), (∀ c ∈ w, isPySpace c = false) →
    noDouble y = true → noDouble (w ++ y) = true := by
  intro w
  induction w with
  | nil => intro y _ hy; exact hy
  | cons a w' ih =>
    intro y hns hy
    have ha : (a == ' ') = false := by
      have := hns a (List.mem_cons_self a w')
      rw [beq_eq_false_iff_ne]
      intro hsp
      rw [hsp] at this
      exact absurd this (by decide)
    rw [List.cons_append]
    exact noDouble_cons_of_ne ha _ (ih y (fun c hc => hns c (List.mem_cons_of_mem a hc)) hy)

theorem jw_noDouble : ∀ ws : List (List Char),
    (∀ w ∈ ws, w ≠ [] ∧ ∀ c ∈ w, isPySpace c = false) → noDouble (joinWords ws) = true := by
  intro ws
  induction ws with
  | nil => intro _; rfl
  | cons w ws' ih =>
    intro hg
    have hw := hg w (List.mem_cons_self w ws')
    cases ws' with
    | nil =>
      show noDouble (joinWords [w]) = true
      have : joinWords [w] = w ++ [] := by simp [joinWords]
      rw [this]
      exact noDouble_word_append w [] hw.2 rfl
    | cons w2 rest =>
      have hg' : ∀ x ∈ w2 :: rest, x ≠ [] ∧ ∀ c ∈ x, isPySpace c = false :=
        fun x hx => hg x (List.mem_cons_of_mem w hx)
      show noDouble (w ++ ' ' :: joinWords (w2 :: rest)) = true
      refine noDouble_word_append w _ hw.2 ?_
      obtain ⟨j, J', hJ⟩ : ∃ j J', joinWords (w2 :: rest) = j :: J' := by
        cases hJJ : joinWords (w2 :: rest) with
        | nil => exact absurd hJJ (jw_ne_nil _ (by simp) hg')
        | cons j J' => exact ⟨j, J', rfl⟩
      rw [hJ]
      have hj : isPySpace j = false := by
        refine jw_head (w2 :: rest) hg' j ?_
        rw [hJ]
        rfl
      have hjs : (j == ' ') = false := by
        rw [beq_eq_false_iff_ne]
        intro hjsp
        rw [hjsp] at hj
        exact absurd hj (by decide)
      have hnd : noDouble (j :: J') = true := by
        rw [← hJ]
        exact ih hg'
      simp [noDouble, hjs, hnd]

theorem pyWords_subset : ∀ (l : List Char), ∀ w ∈ pyWords l, ∀ c ∈ w, c ∈ l := by
  intro l
  induction l with
  | nil => intro w hw; cases hw
  | cons c cs ih =>
    intro w hw x hx
    by_cases hc : isPySpace c = true
    · rw [pw_space cs hc] at hw
      exact List.mem_cons_of_mem c (ih w hw x hx)
    · rw [Bool.not_eq_true] at hc
      cases cs with
      | nil =>
        rw [pw_single hc] at hw
        rcases List.mem_singleton.mp hw with rfl
        rcases List.mem_singleton.mp hx with rfl
        exact List.mem_cons_self x []
      | cons d t =>
        by_cases hd : isPySpace d = true
        · rw [pw_break t hc hd] at hw
          rcases List.mem_cons.mp hw with rfl | hw2
          · rcases List.mem_singleton.mp hx with rfl
            exact List.mem_cons_self x _
          · exact List.mem_cons_of_mem c (ih w hw2 x hx)
        · rw [Bool.not_eq_true] at hd
          obtain ⟨w0, ws0, hpw⟩ := pyWords_cons_shape t d hd
          rw [pw_glue hc hd hpw] at hw
          rcases List.mem_cons.mp hw with rfl | hw2
          · rcases List.mem_cons.mp hx with rfl | hx2
            · exact List.mem_cons_self x _
            · refine List.mem_cons_of_mem c ?_
              exact ih (d :: w0) (hpw ▸ List.mem_cons_self _ _) x hx2
          · exact List.mem_cons_of_mem c (ih w (hpw ▸ List.mem_cons_of_mem _ hw2) x hx)

/-! Segment machinery: a text built from whole vocabulary tokens and ordinary
characters is processed by the substitution chain segment by segment. -/

/-- One rule applied at the segment level: a segment equal to the pattern is
replaced, any other segment is untouched. -/
def stepSeg (s : List Char) (r : List Char × List Char) : List Char :=
  if s = r.1 then r.2 else s

/-- The image of one segment under a whole rule chain. -/
def imageUnder (rules : List (List Char × List Char)) (s : List Char) : List Char :=
  rules.foldl stepSeg s

/-- `goodFor rules s`: at every stage of the chain the current form of the
segment either equals the pattern of the pending rule or is `safeB` for it. -/
def goodFor : List (List Char × List Char) → List Char → Bool
  | [], _ => true
  | r :: rs, s => ((s == r.1) || safeB r.1 s) && goodFor rs (stepSeg s r)

theorem imageUnder_cons (r : List Char × List Char) (rs : List (List Char × List Char))
    (s : List Char) : imageUnder (r :: rs) s = imageUnder rs (stepSeg s r) := rfl

theorem replace_flatten {p : List Char} (rep : List Char) (hne : p ≠ []) :
    ∀ segs : List (List Char), (∀ s ∈ segs, s = p ∨ safeB p s = true) →
      replaceL p rep segs.flatten =
        (segs.map (fun s => if s = p then rep else s)).flatten := by
  intro segs
  induction segs with
  | nil => intro _; rfl
  | cons s segs' ih =>
    intro h
    have hs := h s (List.mem_cons_self s segs')
    have hrest := fun s' hs' => h s' (List.mem_cons_of_mem s hs')
    simp only [List.flatten_cons, List.map_cons]
    by_cases hsp : s = p
    · subst hsp
      rw [replaceL_consume rep _ hne, ih hrest, if_pos rfl]
    · have hsafe : safeB p s = true := by
        rcases hs with h1 | h2
        · exact absurd h1 hsp
        · exact h2
      rw [replaceL_append_safe rep s _ hsafe, ih hrest, if_neg hsp]

theorem applyRules_flatten :
    ∀ (rules : List (List Char × List Char)), (∀ r ∈ rules, r.1 ≠ []) →
    ∀ segs : List (List Char), (∀ s ∈ segs, goodFor rules s = true) →
      applyRules rules segs.flatten = (segs.map (imageUnder rules)).flatten := by
  intro rules
  induction rules with
  | nil =>
    intro _ segs _
    show segs.flatten = (segs.map (fun s => s)).flatten
    rw [List.map_id']
  | cons r rs ih =>
    intro hne segs h
    rw [applyRules_cons]
    have hstep : replaceL r.1 r.2 segs.flatten =
        (segs.map (fun s => if s = r.1 then r.2 else s)).flatten := by
      refine replace_flatten r.2 (hne r (List.mem_cons_self r rs)) segs ?_
      intro s hs
      have := h s hs
      simp only [goodFor, Bool.and_eq_true, Bool.or_eq_true, beq_iff_eq] at this
      rcases this.1 with h1 | h2
      · exact Or.inl h1
      · exact Or.inr h2
    rw [hstep]
    have hmap : (segs.map (fun s => if s = r.1 then r.2 else s)) = segs.map (stepSeg · r) := by
      simp only [stepSeg]
    rw [hmap]
    have hrs : ∀ s' ∈ segs.map (stepSeg · r), goodFor rs s' = true := by
      intro s' hs'
      obtain ⟨s, hs, rfl⟩ := List.mem_map.mp hs'
      have := h s hs
      simp only [goodFor, Bool.and_eq_true] at this
      exact this.2
    rw [ih (fun r' hr' => hne r' (List.mem_cons_of_mem r hr')) _ hrs, List.map_map]
    rfl

theorem goodFor_single (c : Char) :
    ∀ rules : List (List Char × List Char),
      (∀ r ∈ rules, r.1 ≠ [] ∧ r.1 ≠ [c] ∧ r.1.head? ≠ some c) →
      goodFor rules [c] = true := by
  intro rules
  induction rules with
  | nil => intro _; rfl
  | cons r rs ih =>
    intro h
    obtain ⟨h1, h2, h3⟩ := h r (List.mem_cons_self r rs)
    have hsafe : safeB r.1 [c] = true := by
      show (!(r.1.isPrefixOf [c]) && !(([c] : List Char).isPrefixOf r.1) && safeB r.1 []) = true
      have hp1 : r.1.isPrefixOf [c] = false := by
        cases hr1 : r.1 with
        | nil => exact absurd hr1 h1
        | cons p ps =>
          cases ps with
          | nil =>
            have : p ≠ c := by
              intro hpc
              apply h2
              rw [hr1, hpc]
            simp [List.isPrefixOf, this]
          | cons q qs => simp [List.isPrefixOf]
      have hp2 : ([c] : List Char).isPrefixOf r.1 = false := by
        cases hr1 : r.1 with
        | nil => simp [List.isPrefixOf]
        | cons p ps =>
          have : c ≠ p := by
            intro hpc
            apply h3
            rw [hr1, hpc]
            rfl
          simp [List.isPrefixOf, this]
      rw [hp1, hp2]
      rfl
    have hstep : stepSeg [c] r = [c] := by
      unfold stepSeg
      rw [if_neg (fun hh => h2 hh.symm)]
    simp only [goodFor, hsafe, Bool.or_true, Bool.true_and, hstep]
    exact ih (fun r' hr' => h r' (List.mem_cons_of_mem r hr'))

theorem imageUnder_single (c : Char) :
    ∀ rules : List (List Char × List Char), (∀ r ∈ rules, r.1 ≠ [c]) →
      imageUnder rules [c] = [c] := by
  intro rules
  induction rules with
  | nil => intro _; rfl
  | cons r rs ih =>
    intro h
    rw [imageUnder_cons]
    have hstep : stepSeg [c] r = [c] := by
      unfold stepSeg
      rw [if_neg (fun hh => h r (List.mem_cons_self r rs) hh.symm)]
    rw [hstep]
    exact ih (fun r' hr' => h r' (List.mem_cons_of_mem r hr'))

/-- Texts built only from the documented tag/entity vocabulary `toks` plus
ordinary characters: every `<` and every `&` in the text occurs as part of a
whole documented token. -/
inductive Vocab (toks : List (List Char)) : List Char → Prop
  | nil : Vocab toks []
  | tok {t rest} : t ∈ toks → Vocab toks rest → Vocab toks (t ++ rest)
  | chr {c rest} : c ≠ '<' → c ≠ '&' → Vocab toks rest → Vocab toks (c :: rest)

theorem vocab_segs {toks : List (List Char)} {x : List Char} (h : Vocab toks x) :
    ∃ segs : List (List Char), x = segs.flatten ∧
      ∀ s ∈ segs, s ∈ toks ∨ ∃ c, s = [c] ∧ c ≠ '<' ∧ c ≠ '&' := by
  induction h with
  | nil => exact ⟨[], rfl, by intro s hs; cases hs⟩
  | tok ht _ ih =>
    obtain ⟨segs, rfl, hsegs⟩ := ih
    rename_i t rest
    refine ⟨t :: segs, by simp, ?_⟩
    intro s hs
    rcases List.mem_cons.mp hs with rfl | hs2
    · exact Or.inl ht
    · exact hsegs s hs2
  | chr hc1 hc2 _ ih =>
    obtain ⟨segs, rfl, hsegs⟩ := ih
    rename_i c rest
    refine ⟨[c] :: segs, by simp, ?_⟩
    intro s hs
    rcases List.mem_cons.mp hs with rfl | hs2
    · exact Or.inr ⟨c, rfl, hc1, hc2⟩
    · exact hsegs s hs2

/-! Instantiation for `clean_text`. -/

/-- The documented tag/entity vocabulary of `clean_text`: the multi-character
patterns of its substitution chain (20 tags and 5 HTML entities). -/
def cToks : List (List Char) := (cRulesMain.take 25).map Prod.fst

/-- The single-character patterns of the `clean_text` chain (the Unicode
punctuation table). -/
def cSpecials : List Char := ((cRulesMain.drop 25).map Prod.fst).flatten

/-- Characters that can never survive the `clean_text` chain: the two markup
markers and the replaced Unicode punctuation (the bullet maps to itself and
the non-breaking space is whitespace, so neither is listed). -/
def cBad : List Char :=
  ['<', '&', '\u2019', '\u2018', '\u201C', '\u201D', '\u2014', '\u2013',
   '\u2026', '\u00E9', '\u00FB', '\u2212']

theorem cRules_heads : ∀ r ∈ cRulesMain, r.1 ≠ [] ∧
    ∀ hd, r.1.head? = some hd → hd = '<' ∨ hd = '&' ∨ hd ∈ cSpecials := by
  decide

theorem cToks_good : cToks.all (fun t => goodFor cRulesMain t) = true := by decide

theorem cSpecials_good : cSpecials.all (fun u => goodFor cRulesMain [u]) = true := by decide

theorem cToks_image_ok :
    cToks.all (fun t => (imageUnder cRulesMain t).all (fun c => !(cBad.contains c))) = true := by
  decide

theorem cSpecials_image_ok :
    cSpecials.all (fun u => (imageUnder cRulesMain [u]).all (fun c => !(cBad.contains c)))
      = true := by
  decide

theorem cBad_sub : ∀ b ∈ cBad, b = '<' ∨ b = '&' ∨ b ∈ cSpecials := by decide

theorem clean_chain_nobad {x : List Char} (hv : Vocab cToks x) :
    ∀ a ∈ applyRules cRulesMain x, cBad.contains a = false := by
  obtain ⟨segs, rfl, hsegs⟩ := vocab_segs hv
  have hgood : ∀ s ∈ segs, goodFor cRulesMain s = true := by
    intro s hs
    rcases hsegs s hs with ht | ⟨c, rfl, hc1, hc2⟩
    · exact List.all_eq_true.mp cToks_good s ht
    · by_cases hcs : c ∈ cSpecials
      · exact List.all_eq_true.mp cSpecials_good c hcs
      · refine goodFor_single c cRulesMain ?_
        intro r hr
        obtain ⟨h1, h2⟩ := cRules_heads r hr
        refine ⟨h1, ?_, ?_⟩
        · intro he
          rcases h2 c (by rw [he]; rfl) with h | h | h
          · exact hc1 h
          · exact hc2 h
          · exact hcs h
        · intro he
          obtain ⟨hd, hds⟩ : ∃ hd, r.1.head? = some hd := by
            cases hr1 : r.1 with
            | nil => exact absurd hr1 h1
            | cons p ps => exact ⟨p, by simp [hr1]⟩
          rw [hds] at he
          have : hd = c := by
            injection he
          subst this
          rcases h2 hd hds with h | h | h
          · exact hc1 h
          · exact hc2 h
          · exact hcs h
  intro a ha
  rw [applyRules_flatten cRulesMain (fun r hr => (cRules_heads r hr).1) segs hgood] at ha
  obtain ⟨im, him, haim⟩ := List.mem_flatten.mp ha
  obtain ⟨s, hsmem, rfl⟩ := List.mem_map.mp him
  rcases hsegs s hsmem with ht | ⟨c, rfl, hc1, hc2⟩
  · have := List.all_eq_true.mp (List.all_eq_true.mp cToks_image_ok s ht) a haim
    simpa using this
  · by_cases hcs : c ∈ cSpecials
    · have := List.all_eq_true.mp (List.all_eq_true.mp cSpecials_image_ok c hcs) a haim
      simpa using this
    · have himg : imageUnder cRulesMain [c] = [c] := by
        refine imageUnder_single c cRulesMain ?_
        intro r hr he
        obtain ⟨h1, h2⟩ := cRules_heads r hr
        rcases h2 c (by rw [he]; rfl) with h | h | h
        · exact hc1 h
        · exact hc2 h
        · exact hcs h
      rw [himg] at haim
      rcases List.mem_singleton.mp haim with rfl
      rw [← Bool.not_eq_true]
      intro hbad
      rcases cBad_sub a (by simpa using hbad) with h | h | h
      · exact hc1 h
      · exact hc2 h
      · exact hcs h

/-- Characters that the second pass of `clean_text` can encounter: not a
character the chain rewrites, and the only whitespace is a plain space. -/
def cOk (c : Char) : Bool := !(cBad.contains c) && (!(isPySpace c) || (c == ' '))

theorem cRules_id_cond :
    (cRulesMain ++ cRulesNl).all (fun r => (r.1 == r.2) || r.1.any (fun a => !(cOk a)))
      = true := by
  decide

theorem clean_text_idem {x : List Char} (hv : Vocab cToks x) :
    clean_text (clean_text x) = clean_text x := by
  by_cases hx : x = []
  · subst hx; rfl
  · have hz : clean_text x =
        joinWords (pyWords (applyRules cRulesNl (applyRules cRulesMain x))) := by
      unfold clean_text
      rw [if_neg hx, applyRules_append_rules]
    have hgoodws := pyWords_good (applyRules cRulesNl (applyRules cRulesMain x))
    have hz2sub : ∀ a ∈ applyRules cRulesNl (applyRules cRulesMain x),
        a ∈ applyRules cRulesMain x ∨ a = ' ' := by
      intro a ha
      rcases mem_applyRules cRulesNl (applyRules cRulesMain x) ha with h | ⟨r, hr, har⟩
      · exact Or.inl h
      · simp only [cRulesNl, List.mem_cons, List.not_mem_nil, or_false] at hr
        rcases hr with rfl | rfl | rfl <;> simp_all
    have hybad : ∀ a ∈ applyRules cRulesNl (applyRules cRulesMain x),
        cBad.contains a = false := by
      intro a ha
      rcases hz2sub a ha with h | rfl
      · exact clean_chain_nobad hv a h
      · decide
    have hok : ∀ c ∈ joinWords (pyWords (applyRules cRulesNl (applyRules cRulesMain x))),
        cOk c = true := by
      intro c hc
      rcases jw_mem _ c hc with rfl | ⟨w, hw, hcw⟩
      · decide
      · have h1 : cBad.contains c = false := hybad c (pyWords_subset _ w hw c hcw)
        have h1m : c ∉ cBad := by simpa using h1
        have h2 : isPySpace c = false := (hgoodws w hw).2 c hcw
        simp [cOk, h1m, h2]
    rw [hz]
    by_cases hy : joinWords (pyWords (applyRules cRulesNl (applyRules cRulesMain x))) = []
    · rw [hy]
      rfl
    · unfold clean_text
      rw [if_neg hy]
      rw [applyRules_id _ _ hok cRules_id_cond]
      rw [pyWords_joinWords _ (fun w hw => hgoodws w hw)]

/-! Instantiation for `_clean_text`. -/

/-- The documented tag/entity vocabulary of `_clean_text`: the
multi-character patterns of its substitution chain (8 tags and 7 HTML
entities). -/
def uToks : List (List Char) := (uRulesMain.take 15).map Prod.fst

/-- The single-character patterns of the `_clean_text` chain. -/
def uSpecials : List Char := ((uRulesMain.drop 15).map Prod.fst).flatten

/-- Characters that can never survive the `_clean_text` chain. -/
def uBad : List Char := ['<', '&', '\u2019', '\u2018', '\u201C', '\u201D', '\u2014']

theorem uRules_heads : ∀ r ∈ uRulesMain, r.1 ≠ [] ∧
    ∀ hd, r.1.head? = some hd → hd = '<' ∨ hd = '&' ∨ hd ∈ uSpecials := by
  decide

theorem uToks_good : uToks.all (fun t => goodFor uRulesMain t) = true := by decide

theorem uSpecials_good : uSpecials.all (fun u => goodFor uRulesMain [u]) = true := by decide

theorem uToks_image_ok :
    uToks.all (fun t => (imageUnder uRulesMain t).all (fun c => !(uBad.contains c))) = true := by
  decide

theorem uSpecials_image_ok :
    uSpecials.all (fun u => (imageUnder uRulesMain [u]).all (fun c => !(uBad.contains c)))
      = true := by
  decide

theorem uBad_sub : ∀ b ∈ uBad, b = '<' ∨ b = '&' ∨ b ∈ uSpecials := by decide

theorem uclean_chain_nobad {x : List Char} (hv : Vocab uToks x) :
    ∀ a ∈ applyRules uRulesMain x, uBad.contains a = false := by
  obtain ⟨segs, rfl, hsegs⟩ := vocab_segs hv
  have hgood : ∀ s ∈ segs, goodFor uRulesMain s = true := by
    intro s hs
    rcases hsegs s hs with ht | ⟨c, rfl, hc1, hc2⟩
    · exact List.all_eq_true.mp uToks_good s ht
    · by_cases hcs : c ∈ uSpecials
      · exact List.all_eq_true.mp uSpecials_good c hcs
      · refine goodFor_single c uRulesMain ?_
        intro r hr
        obtain ⟨h1, h2⟩ := uRules_heads r hr
        refine ⟨h1, ?_, ?_⟩
        · intro he
          rcases h2 c (by rw [he]; rfl) with h | h | h
          · exact hc1 h
          · exact hc2 h
          · exact hcs h
        · intro he
          obtain ⟨hd, hds⟩ : ∃ hd, r.1.head? = some hd := by
            cases hr1 : r.1 with
            | nil => exact absurd hr1 h1
            | cons p ps => exact ⟨p, by simp [hr1]⟩
          rw [hds] at he
          have : hd = c := by
            injection he
          subst this
          rcases h2 hd hds with h | h | h
          · exact hc1 h
          · exact hc2 h
          · exact hcs h
  intro a ha
  rw [applyRules_flatten uRulesMain (fun r hr => (uRules_heads r hr).1) segs hgood] at ha
  obtain ⟨im, him, haim⟩ := List.mem_flatten.mp ha
  obtain ⟨s, hsmem, rfl⟩ := List.mem_map.mp him
  rcases hsegs s hsmem with ht | ⟨c, rfl, hc1, hc2⟩
  · have := List.all_eq_true.mp (List.all_eq_true.mp uToks_image_ok s ht) a haim
    simpa using this
  · by_cases hcs : c ∈ uSpecials
    · have := List.all_eq_true.mp (List.all_eq_true.mp uSpecials_image_ok c hcs) a haim
      simpa using this
    · have himg : imageUnder uRulesMain [c] = [c] := by
        refine imageUnder_single c uRulesMain ?_
        intro r hr he
        obtain ⟨h1, h2⟩ := uRules_heads r hr
        rcases h2 c (by rw [he]; rfl) with h | h | h
        · exact hc1 h
        · exact hc2 h
        · exact hcs h
      rw [himg] at haim
      rcases List.mem_singleton.mp haim with rfl
      rw [← Bool.not_eq_true]
      intro hbad
      rcases uBad_sub a (by simpa using hbad) with h | h | h
      · exact hc1 h
      · exact hc2 h
      · exact hcs h

/-- Characters that the second pass of `_clean_text` can encounter. -/
def uOk (c : Char) : Bool := !(uBad.contains c) && (!(isPySpace c) || (c == ' '))

theorem uRules_id_cond :
    (uRulesMain ++ uRulesNl).all (fun r => (r.1 == r.2) || r.1.any (fun a => !(uOk a)))
      = true := by
  decide

theorem uclean_text_idem {x : List Char} (hv : Vocab uToks x) :
    _clean_text (_clean_text x) = _clean_text x := by
  by_cases hx : x = []
  · subst hx; rfl
  · have hgoodws := pyWords_good (applyRules uRulesNl (applyRules uRulesMain x))
    have hstrip : stripL (joinWords (pyWords (applyRules uRulesNl (applyRules uRulesMain x))))
        = joinWords (pyWords (applyRules uRulesNl (applyRules uRulesMain x))) := by
      refine stripL_id _ ?_ ?_
      · exact fun a ha => jw_head _ (fun w hw => hgoodws w hw) a ha
      · exact fun a ha => jw_last _ (fun w hw => hgoodws w hw) a ha
    have hz : _clean_text x =
        joinWords (pyWords (applyRules uRulesNl (applyRules uRulesMain x))) := by
      unfold _clean_text
      rw [if_neg hx, applyRules_append_rules, hstrip]
    have hz2sub : ∀ a ∈ applyRules uRulesNl (applyRules uRulesMain x),
        a ∈ applyRules uRulesMain x ∨ a = ' ' := by
      intro a ha
      rcases mem_applyRules uRulesNl (applyRules uRulesMain x) ha with h | ⟨r, hr, har⟩
      · exact Or.inl h
      · simp only [uRulesNl, List.mem_cons, List.not_mem_nil, or_false] at hr
        rcases hr with rfl | rfl <;> simp_all
    have hybad : ∀ a ∈ applyRules uRulesNl (applyRules uRulesMain x),
        uBad.contains a = false := by
      intro a ha
      rcases hz2sub a ha with h | rfl
      · exact uclean_chain_nobad hv a h
      · decide
    have hok : ∀ c ∈ joinWords (pyWords (applyRules uRulesNl (applyRules uRulesMain x))),
        uOk c = true := by
      intro c hc
      rcases jw_mem _ c hc with rfl | ⟨w, hw, hcw⟩
      · decide
      · have h1 : uBad.contains c = false := hybad c (pyWords_subset _ w hw c hcw)
        have h1m : c ∉ uBad := by simpa using h1
        have h2 : isPySpace c = false := (hgoodws w hw).2 c hcw
        simp [uOk, h1m, h2]
    rw [hz]
    by_cases hy : joinWords (pyWords (applyRules uRulesNl (applyRules uRulesMain x))) = []
    · rw [hy]
      rfl
    · unfold _clean_text
      rw [if_neg hy]
      rw [applyRules_id _ _ hok uRules_id_cond]
      rw [pyWords_joinWords _ (fun w hw => hgoodws w hw)]
      exact stripL_id _ (fun a ha => jw_head _ (fun w hw => hgoodws w hw) a ha)
        (fun a ha => jw_last _ (fun w hw => hgoodws w hw) a ha)

/-! Python string comparison (code-point lexicographic, as used by `sorted`)
and the `sorted` embedding. -/

def strLtB : List Char → List Char → Bool
  | [], [] => false
  | [], _ :: _ => true
  | _ :: _, [] => false
  | a :: as, b :: bs =>
    if a.toNat < b.toNat then true
    else if b.toNat < a.toNat then false
    else strLtB as bs

theorem char_eq_of_toNat_eq {a b : Char} (h : a.toNat = b.toNat) : a = b := by
  have h2 : a.val.toNat = b.val.toNat := h
  exact Char.eq_of_val_eq (UInt32.toNat.inj h2)

theorem strLtB_asymm : ∀ a b, strLtB a b = true → strLtB b a = false := by
  intro a
  induction a with
  | nil => intro b h; cases b <;> simp_all [strLtB]
  | cons x as ih =>
    intro b h
    cases b with
    | nil => simp [strLtB] at h
    | cons y bs =>
      simp only [strLtB] at h ⊢
      by_cases h1 : x.toNat < y.toNat
      · simp only [h1, if_true] at h
        have h2 : ¬ y.toNat < x.toNat := by omega
        simp [h1, h2]
      · simp only [h1, if_false] at h
        by_cases h2 : y.toNat < x.toNat
        · simp [h2] at h
        · simp only [h2, if_false] at h
          have := ih bs h
          simp [h1, h2, this]

theorem strLtB_connex : ∀ a b, strLtB a b = false → strLtB b a = false → a = b := by
  intro a
  induction a with
  | nil => intro b h1 _; cases b with
    | nil => rfl
    | cons y bs => simp [strLtB] at h1
  | cons x as ih =>
    intro b h1 h2
    cases b with
    | nil => simp [strLtB] at h2
    | cons y bs =>
      simp only [strLtB] at h1 h2
      by_cases hxy : x.toNat < y.toNat
      · simp [hxy] at h1
      · by_cases hyx : y.toNat < x.toNat
        · simp [hyx] at h2
        · have hx : x = y := char_eq_of_toNat_eq (by omega)
          simp only [hxy, if_false, hyx] at h1 h2
          rw [hx, ih bs (by simpa [hxy, hyx] using h1) (by simpa [hxy, hyx] using h2)]

theorem strLtB_trans : ∀ a b c, strLtB a b = true → strLtB b c = true → strLtB a c = true := by
  intro a
  induction a with
  | nil =>
    intro b c h1 h2
    cases b with
    | nil => simp [strLtB] at h1
    | cons y bs =>
      cases c with
      | nil => simp [strLtB] at h2
      | cons z cs => simp [strLtB]
  | cons x as ih =>
    intro b c h1 h2
    cases b with
    | nil => simp [strLtB] at h1
    | cons y bs =>
      cases c with
      | nil => simp [strLtB] at h2
      | cons z cs =>
        simp only [strLtB] at h1 h2 ⊢
        by_cases hxy : x.toNat < y.toNat <;> by_cases hyz : y.toNat < z.toNat
        · have : x.toNat < z.toNat := by omega
          simp [this]
        · by_cases hzy : z.toNat < y.toNat
          · simp [hyz, hzy] at h2
          · have : x.toNat < z.toNat := by omega
            simp [this]
        · by_cases hyx : y.toNat < x.toNat
          · simp [hxy, hyx] at h1
          · have : x.toNat < z.toNat := by omega
            simp [this]
        · by_cases hyx : y.toNat < x.toNat
          · simp [hxy, hyx] at h1
          · by_cases hzy : z.toNat < y.toNat
            · simp [hyz, hzy] at h2
            · have hxz : ¬ x.toNat < z.toNat := by omega
              have hzx : ¬ z.toNat < x.toNat := by omega
              simp only [hxy, hyx, if_false] at h1
              simp only [hyz, hzy, if_false] at h2
              simp [hxz, hzx, ih bs cs h1 h2]

def pyStrLe (a b : String) : Prop := strLtB b.data a.data = false

instance : DecidableRel pyStrLe := fun a b => by unfold pyStrLe; infer_instance

instance : IsTotal String pyStrLe := by
  constructor
  intro a b
  by_cases h : strLtB a.data b.data = true
  · exact Or.inl (strLtB_asymm _ _ h)
  · exact Or.inr (by simpa using h)

instance : IsTrans String pyStrLe := by
  constructor
  intro a b c h1 h2
  unfold pyStrLe at h1 h2 ⊢
  by_cases hca : strLtB c.data a.data = true
  · exfalso
    by_cases hab : strLtB a.data b.data = true
    · have := strLtB_trans _ _ _ hca hab
      rw [h2] at this
      cases this
    · have hab2 : strLtB a.data b.data = false := by simpa using hab
      have heq : a.data = b.data := strLtB_connex _ _ hab2 h1
      rw [heq] at hca
      rw [h2] at hca
      cases hca
  · simpa using hca

/-! Data model of the input tree, restricted to the fields the extractors
read.  Fields the source reads with `dict.get(key, default)` are modelled as
total fields (holding the defaulted value); fields the source tests for
presence or truthiness are modelled as `Option`. -/

/-- Python `str.capitalize()` (ASCII model): first character uppercased, all
remaining characters lowercased. -/
def pyCapitalizeL : List Char → List Char
  | [] => []
  | c :: cs => c.toUpper :: cs.map Char.toLower

/-- String-level wrapper for `str.capitalize()`. -/
def pyCapitalize (s : String) : String := ⟨pyCapitalizeL s.data⟩

/-- Python `str.title()` (ASCII model): each alphabetic character is
uppercased when the previous character is not alphabetic and lowercased
otherwise. -/
def pyTitleGo : Bool → List Char → List Char
  | _, [] => []
  | prevAlpha, c :: cs =>
    (if c.isAlpha then (if prevAlpha then c.toLower else c.toUpper) else c) ::
      pyTitleGo c.isAlpha cs

/-- String-level wrapper for `str.title()`. -/
def pyTitle (s : String) : String := ⟨pyTitleGo false s.data⟩

/-- A nested dice descriptor of a modifier (only `diceString` is read). -/
structure DiceInfo where
  diceString : String := ""
deriving DecidableEq, Repr

/-- A modifier record of the input tree (`data.modifiers.*`).  The source
reads `type`, `subType`, `value`, `friendlySubtypeName`, `componentId` and
`dice` directly, so they are total fields here. -/
structure Modifier where
  type : String
  subType : String := ""
  value : Int := 0
  friendlySubtypeName : String := ""
  componentId : Int := 0
  dice : DiceInfo := {}
deriving DecidableEq, Repr

/-- `CharacterParser.get_languages`: race modifiers with `type == "language"`,
each subtype capitalized, then `sorted`. -/
def get_languages (raceModifiers : List Modifier) : List String :=
  List.insertionSort pyStrLe
    ((raceModifiers.filter (fun m => m.type == "language")).map
      (fun m => pyCapitalize m.subType))

/-- `CharacterParser.get_racial_skills`: race modifiers with
`type == "proficiency"` (their `subType` is present per the documented input
schema), capitalized and `sorted`. -/
def get_racial_skills (raceModifiers : List Modifier) : List String :=
  List.insertionSort pyStrLe
    ((raceModifiers.filter (fun m => m.type == "proficiency")).map
      (fun m => pyCapitalize m.subType))

/-- Python-dict insertion keyed by strings: overwrite in place when the key
exists, else append (insertion order preserved). -/
def dictInsert {α : Type} (m : List (String × α)) (k : String) (v : α) : List (String × α) :=
  if m.any (fun p => p.1 == k) then m.map (fun p => if p.1 == k then (k, v) else p)
  else m ++ [(k, v)]

/-- Lookup in the insertion-ordered dictionary model. -/
def lookupD {α : Type} (m : List (String × α)) (k : String) : Option α :=
  (m.find? (fun p => p.1 == k)).map Prod.snd

/-- `CharacterParser.get_racial_bonuses`: race modifiers with
`type == "bonus"` and a subtype ending in `-score`, keyed by the ability name
obtained by removing `-score`. -/
def get_racial_bonuses_go (acc : List (String × Int)) : List Modifier → List (String × Int)
  | [] => acc
  | m :: rest =>
    if m.type == "bonus" && "-score".data.isSuffixOf m.subType.data then
      get_racial_bonuses_go
        (dictInsert acc ⟨replaceL "-score".data [] m.subType.data⟩ m.value) rest
    else get_racial_bonuses_go acc rest

/-- `CharacterParser.get_racial_bonuses`. -/
def get_racial_bonuses (raceModifiers : List Modifier) : List (String × Int) :=
  get_racial_bonuses_go [] raceModifiers

/-- The fixed ability-score id table of `CharacterParser.get_stats`; an id
outside 1..6 has no entry (a lookup raises `KeyError` in the source). -/
def stat_names (i : Int) : Option String :=
  if i = 1 then some "strength"
  else if i = 2 then some "dexterity"
  else if i = 3 then some "constitution"
  else if i = 4 then some "intelligence"
  else if i = 5 then some "wisdom"
  else if i = 6 then some "charisma"
  else none

/-- One entry of `data.stats`. -/
structure Stat where
  id : Int
  value : Int
deriving DecidableEq, Repr

/-- The extraction-time failure of `get_stats`: the `KeyError` raised by the
id table lookup, named per the specification's taxonomy. -/
inductive StatError where
  | unknownStatId : Int → StatError
deriving DecidableEq, Repr

/-- Loop of `CharacterParser.get_stats`: build the name-keyed dictionary in
input order; the first id outside the table aborts the extraction. -/
def get_stats_go (acc : List (String × Int)) :
    List Stat → Except StatError (List (String × Int))
  | [] => .ok acc
  | s :: rest =>
    match stat_names s.id with
    | none => .error (.unknownStatId s.id)
    | some n => get_stats_go (dictInsert acc n s.value) rest

/-- `CharacterParser.get_stats`. -/
def get_stats (stats : List Stat) : Except StatError (List (String × Int)) :=
  get_stats_go [] stats

/-- One entry of a `classFeatures` list. -/
structure ClassFeature where
  name : String
  requiredLevel : Int := 0
  description : String := ""
deriving DecidableEq, Repr

/-- The `definition` subtree of a class entry. -/
structure ClassDefinition where
  name : String := ""
  classFeatures : List ClassFeature := []
deriving DecidableEq, Repr

/-- A subclass definition subtree. -/
structure SubclassDefinition where
  name : String := ""
  classFeatures : List ClassFeature := []
deriving DecidableEq, Repr

/-- One entry of `data.classes`.  A missing or null `subclassDefinition`
(falsy in the source's `class_info.get('subclassDefinition')` test) is
`none`. -/
structure ClassInfo where
  level : Int
  definition : ClassDefinition := {}
  subclassDefinition : Option SubclassDefinition := none
deriving DecidableEq, Repr

/-- An extracted feature: name plus description lines. -/
structure FeatureOut where
  name : String
  description : List String
deriving DecidableEq, Repr

/-- The fixed exclusion set of `CharacterParser.get_class_features`. -/
def excluded_features : List String :=
  ["Fighting Style", "Martial Archetype", "Ability Score Improvement",
   "Hit Points", "Equipment", "Proficiencies"]

/-- Description shaping of `get_class_features`: clean with `_clean_text`,
split on newlines, strip each line and keep the non-empty ones. -/
def featureLines (d : String) : List String :=
  ((_clean_text d.data).splitOn '\n').filterMap
    (fun l => let t := stripL l; if t = [] then none else some ⟨t⟩)

/-- Loop of `CharacterParser.get_class_features`. -/
def get_class_features_go (lvl : Int) : List ClassFeature → List FeatureOut
  | [] => []
  | f :: fs =>
    if f.requiredLevel ≤ lvl ∧ f.name ∉ excluded_features then
      { name := f.name, description := featureLines f.description } ::
        get_class_features_go lvl fs
    else get_class_features_go lvl fs

/-- `CharacterParser.get_class_features`. -/
def get_class_features (ci : ClassInfo) : List FeatureOut :=
  get_class_features_go ci.level ci.definition.classFeatures

/-- The fixed Echo Knight feature level gates of
`CharacterParser.get_subclass_features`. -/
def echo_knight_features : List (String × Int) :=
  [("Manifest Echo", 3), ("Unleash Incarnation", 3), ("Echo Avatar", 7),
   ("Shadow Martyr", 10), ("Reclaim Potential", 15), ("Legion of One", 18)]

/-- Lookup in the Echo Knight table (`name in echo_knight_features` plus
`echo_knight_features[name]`). -/
def echoGate (n : String) : Option Int :=
  (echo_knight_features.find? (fun p => p.1 == n)).map Prod.snd

/-- Description shaping of `get_subclass_features`: split the raw text on
newlines, clean each line with `clean_text`, keep the non-empty results. -/
def subfeatureLines (d : String) : List String :=
  (d.data.splitOn '\n').filterMap
    (fun l => let c := clean_text l; if c = [] then none else some ⟨c⟩)

/-- Loop of `CharacterParser.get_subclass_features`. -/
def get_subclass_features_go (lvl : Int) : List ClassFeature → List FeatureOut
  | [] => []
  | f :: fs =>
    match echoGate f.name with
    | some g =>
      if g ≤ lvl then
        { name := f.name, description := subfeatureLines f.description } ::
          get_subclass_features_go lvl fs
      else get_subclass_features_go lvl fs
    | none => get_subclass_features_go lvl fs

/-- `CharacterParser.get_subclass_features`. -/
def get_subclass_features (ci : ClassInfo) : List FeatureOut :=
  match ci.subclassDefinition with
  | none => []
  | some sd => get_subclass_features_go ci.level sd.classFeatures

/-- The `definition` subtree of an inventory item; `dict.get` defaults from
the source are the field defaults. -/
structure ItemDefinition where
  id : Int := 0
  name : String
  description : String := ""
  type : String := ""
  weight : Int := 0
  cost : Option Int := none
  rarity : String := "Common"
  magic : Bool := false
  isContainer : Bool := false
  capacity : String := ""
  capacityWeight : Int := 0
deriving DecidableEq, Repr

/-- One entry of `data.inventory`. -/
structure InvItem where
  definition : ItemDefinition
  quantity : Int := 1
  equipped : Bool := false
deriving DecidableEq, Repr

/-- The `cost` sub-object of an extracted inventory item. -/
structure CostOut where
  quantity : Int
  unit : String
deriving DecidableEq, Repr

/-- The `container` sub-object of an extracted inventory item. -/
structure ContainerOut where
  capacity : String
  capacityWeight : Int
deriving DecidableEq, Repr

/-- An extracted inventory item. -/
structure InvOut where
  name : String
  quantity : Int
  type : String
  description : String
  weight : Int
  equipped : Bool
  rarity : String
  magic : Bool
  cost : Option CostOut
  container : Option ContainerOut
deriving DecidableEq, Repr

/-- Shaping of one inventory item in `CharacterParser.get_inventory`. -/
def mkInvItem (item : InvItem) : InvOut :=
  { name := item.definition.name
    quantity := item.quantity
    type := item.definition.type
    description := ⟨clean_text item.definition.description.data⟩
    weight := item.definition.weight
    equipped := item.equipped
    rarity := item.definition.rarity
    magic := item.definition.magic
    cost := item.definition.cost.map (fun c => { quantity := c, unit := "gp" })
    container :=
      if item.definition.isContainer then
        some { capacity := item.definition.capacity
               capacityWeight := item.definition.capacityWeight }
      else none }

/-- Loop of `CharacterParser.get_inventory` with its `seen_items` set:
`Donkey (or Mule)` is always skipped, a `Backpack` is skipped when one was
already emitted, every emitted item records its name in the set. -/
def get_inventory_go (seen : List String) : List InvItem → List InvOut
  | [] => []
  | item :: rest =>
    if item.definition.name = "Donkey (or Mule)" then get_inventory_go seen rest
    else if item.definition.name = "Backpack" ∧ item.definition.name ∈ seen then
      get_inventory_go seen rest
    else mkInvItem item :: get_inventory_go (item.definition.name :: seen) rest

/-- `CharacterParser.get_inventory`. -/
def get_inventory (inv : List InvItem) : List InvOut :=
  get_inventory_go [] inv

/-! Remaining extractors, needed for the aggregate `parse`. -/

/-- Python `str.lower()` (ASCII model). -/
def pyLower (s : String) : String := ⟨s.data.map Char.toLower⟩

/-- Python `str.strip()` at the string level. -/
def pyStrip (s : String) : String := ⟨stripL s.data⟩

/-- Truthiness of an optional string field: present and non-empty. -/
def strOpt : Option String → Option String
  | some s => if s.data = [] then none else some s
  | none => none

/-- `CharacterParser.get_class_proficiencies`: class modifiers with
`type == "proficiency"`, subtype hyphens replaced by spaces and title-cased,
then `sorted`. -/
def get_class_proficiencies (classModifiers : List Modifier) : List String :=
  List.insertionSort pyStrLe
    ((classModifiers.filter (fun m => m.type == "proficiency")).map
      (fun m => pyTitle ⟨replaceL "-".data " ".data m.subType.data⟩))

/-- The `definition` subtree of an entry of `data.options.class`. -/
structure OptionDefinition where
  name : String := ""
deriving DecidableEq, Repr

/-- One entry of `data.options.class`. -/
structure OptionEntry where
  componentId : Int
  definition : OptionDefinition := {}
deriving DecidableEq, Repr

/-- The proficiency/feature bonuses attached to a base class. -/
structure ClassBonuses where
  proficiencies : List String
  features : List FeatureOut
deriving DecidableEq, Repr

/-- The `base_class` part of an extracted class. -/
structure BaseClassOut where
  name : String
  level : Int
  class_bonuses : ClassBonuses
deriving DecidableEq, Repr

/-- The `subclass` part of an extracted class. -/
structure SubclassOut where
  name : String
  subclass_bonuses : List FeatureOut
deriving DecidableEq, Repr

/-- One extracted class. -/
structure ClassOut where
  base_class : BaseClassOut
  subclass : Option SubclassOut
deriving DecidableEq, Repr

/-- The fighting-style special case of `get_classes`: options with the fixed
component id 191 contribute a feature with a hard-coded two-line
description. -/
def fightingStyleFeatures (optionsClass : List OptionEntry) : List FeatureOut :=
  (optionsClass.filter (fun o => o.componentId == 191)).map
    (fun o =>
      { name := o.definition.name
        description := ["Allows drawing thrown weapons as part of the attack",
                        "Adds +2 to damage rolls with thrown weapons"] })

/-- One entry of `data.classes` as assembled by `CharacterParser.get_classes`:
class proficiencies and the fighting-style option are read from the whole
tree, class features whose name starts with `Proficiency` are dropped. -/
def mkClassOut (classModifiers : List Modifier) (optionsClass : List OptionEntry)
    (ci : ClassInfo) : ClassOut :=
  { base_class :=
      { name := ci.definition.name
        level := ci.level
        class_bonuses :=
          { proficiencies := get_class_proficiencies classModifiers
            features := fightingStyleFeatures optionsClass ++
              (get_class_features ci).filter
                (fun f => !("Proficiency".data.isPrefixOf f.name.data)) } }
    subclass :=
      match ci.subclassDefinition with
      | some sd => some { name := sd.name, subclass_bonuses := get_subclass_features ci }
      | none => none }

/-- The `definition` subtree of `data.background`. -/
structure BackgroundDefinition where
  name : String := ""
  shortDescription : String := ""
  featureName : String := ""
  featureDescription : String := ""
deriving DecidableEq, Repr

/-- The `data.background` subtree; `definition` is presence-tested. -/
structure BackgroundData where
  definition : Option BackgroundDefinition := none
deriving DecidableEq, Repr

/-- The `data.traits` subtree; every field is truthiness-tested by the
source, so each is optional here. -/
structure TraitsData where
  personalityTraits : Option String := none
  ideals : Option String := none
  bonds : Option String := none
  flaws : Option String := none
  appearance : Option String := none
deriving DecidableEq, Repr

/-- One element of the `background_bonuses` list (the source emits three
differently-shaped dictionaries). -/
inductive BgBonus where
  | feature : FeatureOut → BgBonus
  | profs : List String → BgBonus
  | traitLists : List String → List String → BgBonus
deriving DecidableEq, Repr

/-- The extracted background. -/
structure BackgroundOut where
  name : String
  backstory : List String
  description : List String
  background_bonuses : List BgBonus
deriving DecidableEq, Repr

/-- Personality-trait shaping: split on newlines, keep lines with non-empty
strip, clean each stripped line. -/
def personalityLines (s : String) : List String :=
  (s.data.splitOn '\n').filterMap
    (fun l => let t := stripL l; if t = [] then none else some ⟨_clean_text t⟩)

/-- The appearance header/description loop of `get_background`: a line
without a colon opens a header when none is pending, the next colon-free line
closes it into `header: line`; lines with colons are skipped. -/
def appearance_go (cur : Option (List Char)) : List (List Char) → List (List Char)
  | [] => []
  | l :: ls =>
    let line := stripL l
    if line = [] then appearance_go cur ls
    else if line.contains ':' = false ∧ cur = none then appearance_go (some line) ls
    else
      match cur with
      | some h =>
        if line.contains ':' = false then
          (h ++ ": ".data ++ line) :: appearance_go none ls
        else appearance_go cur ls
      | none => appearance_go cur ls

/-- The additional traits extracted from `traits.appearance`. -/
def appearanceTraits (s : String) : List String :=
  (appearance_go none (s.data.splitOn '\n')).map (fun l => ⟨l⟩)

/-- `CharacterParser.get_background` given the subtrees it reads. -/
def get_background (background : Option BackgroundData) (notesBackstory : Option String)
    (backgroundModifiers : List Modifier) (traits : TraitsData) : Option BackgroundOut :=
  match background with
  | none => none
  | some bg =>
    match bg.definition with
    | none => none
    | some d =>
      let backstory : List String :=
        match notesBackstory with
        | some b => let c := _clean_text b.data; if c = [] then [] else [⟨c⟩]
        | none => []
      let profs : List String :=
        List.insertionSort pyStrLe
          ((backgroundModifiers.filter (fun m => m.type == "proficiency")).map
            (fun m => m.friendlySubtypeName))
      let baseTraits : List String :=
        match strOpt traits.personalityTraits with
        | some s => personalityLines s
        | none => []
      let withIdeals :=
        match strOpt traits.ideals with
        | some s => baseTraits ++ [⟨_clean_text (stripL s.data)⟩]
        | none => baseTraits
      let withBonds :=
        match strOpt traits.bonds with
        | some s => withIdeals ++ [⟨_clean_text (stripL s.data)⟩]
        | none => withIdeals
      let withFlaws :=
        match strOpt traits.flaws with
        | some s => withBonds ++ [⟨_clean_text (stripL s.data)⟩]
        | none => withBonds
      let additional :=
        match strOpt traits.appearance with
        | some s => appearanceTraits s
        | none => []
      some
        { name := d.name
          backstory := backstory
          description := [⟨_clean_text d.shortDescription.data⟩]
          background_bonuses :=
            [.feature { name := d.featureName
                        description := [⟨_clean_text d.featureDescription.data⟩] },
             .profs profs,
             .traitLists withFlaws additional] }

/-- Integer-keyed dictionary lookup (Python dict keyed by component id). -/
def lookupI {α : Type} (m : List (Int × α)) (k : Int) : Option α :=
  (m.find? (fun p => p.1 == k)).map Prod.snd

/-- Integer-keyed ensure-then-mutate: create the entry from `dflt` when
missing, then apply `f` to the entry (the source's `if cid not in d: d[cid] =
fresh` followed by in-place mutation). -/
def updateI {α : Type} (m : List (Int × α)) (k : Int) (dflt : α) (f : α → α) :
    List (Int × α) :=
  if m.any (fun p => p.1 == k) then m.map (fun p => if p.1 == k then (k, f p.2) else p)
  else m ++ [(k, f dflt)]

/-- The per-feat modifier buckets built by `get_feats`. -/
structure FeatBuckets where
  ability_bonuses : List (String × Int) := []
  proficiencies : List String := []
  features : List String := []
  other : List (String × String) := []
deriving DecidableEq, Repr

/-- Sorting one feat modifier into its bucket (source lines 521-530). -/
def featModifierStep (m : Modifier) (b : FeatBuckets) : FeatBuckets :=
  if m.type == "bonus" && decide ("score".data <:+: m.subType.data) then
    { b with ability_bonuses :=
        dictInsert b.ability_bonuses ⟨replaceL "-score".data [] m.subType.data⟩ m.value }
  else if m.type == "proficiency" then
    { b with proficiencies := b.proficiencies ++ [m.friendlySubtypeName] }
  else if m.type == "set" && m.subType == "unarmed-damage-die" then
    { b with other := b.other ++ [("unarmed-damage-die", m.dice.diceString)] }
  else b

/-- One entry of `data.actions.feat`. -/
structure ActionEntry where
  componentId : Int
  snippet : String := ""
deriving DecidableEq, Repr

/-- The `definition` subtree of one entry of `data.feats`. -/
structure FeatDefinition where
  id : Int
  name : String := ""
  description : String := ""
deriving DecidableEq, Repr

/-- One entry of `data.feats`. -/
structure FeatEntry where
  definition : FeatDefinition
deriving DecidableEq, Repr

/-- One element of a feat's `feat_bonuses` list. -/
inductive FeatBonus where
  | ability_bonuses : List (String × Int) → FeatBonus
  | proficiencies : List String → FeatBonus
  | features : List String → FeatBonus
  | other : List (String × String) → FeatBonus
deriving DecidableEq, Repr

/-- A feat either carries a non-empty `feat_bonuses` list or an empty
`modifiers` key. -/
inductive FeatExtra where
  | bonuses : List FeatBonus → FeatExtra
  | noModifiers : FeatExtra
deriving DecidableEq, Repr

/-- One extracted feat. -/
structure FeatOut where
  name : String
  description : List String
  extra : FeatExtra
deriving DecidableEq, Repr

/-- Collect the non-empty buckets of a feat, in the source's order. -/
def featBonusList (b : FeatBuckets) : List FeatBonus :=
  (if b.ability_bonuses ≠ [] then [FeatBonus.ability_bonuses b.ability_bonuses] else []) ++
  (if b.proficiencies ≠ [] then [FeatBonus.proficiencies b.proficiencies] else []) ++
  (if b.features ≠ [] then [FeatBonus.features b.features] else []) ++
  (if b.other ≠ [] then [FeatBonus.other b.other] else [])

/-- `CharacterParser.get_feats`: index modifiers and action snippets by
component id, then shape each feat, attaching its non-empty buckets. -/
def get_feats (featModifiers : List Modifier) (featActions : List ActionEntry)
    (feats : List FeatEntry) : List FeatOut :=
  let fm0 := featModifiers.foldl
    (fun fm m => updateI fm m.componentId {} (featModifierStep m)) []
  let fm := featActions.foldl
    (fun fm a => updateI fm a.componentId {}
      (fun b =>
        if a.snippet.data ≠ [] then
          { b with features := b.features ++ [pyStrip a.snippet] }
        else b)) fm0
  feats.map (fun fe =>
    { name := fe.definition.name
      description := [⟨clean_text fe.definition.description.data⟩]
      extra :=
        match lookupI fm fe.definition.id with
        | some b =>
          match featBonusList b with
          | [] => FeatExtra.noModifiers
          | bs => FeatExtra.bonuses bs
        | none => FeatExtra.noModifiers })

/-- Integer-keyed dictionary insertion (overwrite, insertion order kept). -/
def dictInsertI {α : Type} (m : List (Int × α)) (k : Int) (v : α) : List (Int × α) :=
  if m.any (fun p => p.1 == k) then m.map (fun p => if p.1 == k then (k, v) else p)
  else m ++ [(k, v)]

/-- The `duration` subtree of a spell definition. -/
structure SpellDuration where
  durationInterval : Int := 0
  durationUnit : String := ""
  durationType : String := ""
deriving DecidableEq, Repr

/-- The `range` subtree of a spell definition. -/
structure SpellRange where
  origin : String := ""
  rangeValue : Int := 0
deriving DecidableEq, Repr

/-- The `definition` subtree of one entry of `data.spells.item`. -/
structure SpellDefinition where
  name : String := ""
  level : Int := 0
  school : String := ""
  duration : SpellDuration := {}
  range : SpellRange := {}
  concentration : Bool := false
  description : String := ""
  components : List Int := []
  componentsDescription : String := ""
deriving DecidableEq, Repr

/-- The `activation` subtree of a spell entry. -/
structure SpellActivation where
  activationTime : Int := 0
deriving DecidableEq, Repr

/-- One entry of `data.spells.item`; `componentId` is truthiness-tested. -/
structure SpellEntry where
  definition : SpellDefinition
  activation : SpellActivation := {}
  componentId : Option Int := none
deriving DecidableEq, Repr

/-- The `components` sub-object of an extracted spell (codes 1, 2, 3). -/
structure SpellComponentsOut where
  verbal : Bool
  somatic : Bool
  material : Bool
  materials_needed : Option String
deriving DecidableEq, Repr

/-- One extracted spell. -/
structure SpellOut where
  name : String
  level : Int
  school : String
  casting_time : String
  range : String
  duration : String
  concentration : Bool
  description : List String
  components : SpellComponentsOut
  source_item : Option String
deriving DecidableEq, Repr

/-- Shaping of one spell in `CharacterParser.get_spells`. -/
def mkSpellOut (itemMap : List (Int × String)) (sp : SpellEntry) : SpellOut :=
  let d := sp.definition
  let durBase := toString d.duration.durationInterval ++ " " ++ pyLower d.duration.durationUnit
  let dur := if d.duration.durationType == "Concentration" then
      "Concentration, up to " ++ durBase
    else durBase
  let rng := if d.range.rangeValue > 0 then toString d.range.rangeValue ++ " feet"
    else d.range.origin
  { name := d.name
    level := d.level
    school := d.school
    casting_time := toString sp.activation.activationTime ++ " action"
    range := rng
    duration := dur
    concentration := d.concentration
    description := [⟨_clean_text d.description.data⟩]
    components :=
      { verbal := 1 ∈ d.components
        somatic := 2 ∈ d.components
        material := 3 ∈ d.components
        materials_needed :=
          if 3 ∈ d.components then some d.componentsDescription else none }
    source_item :=
      match sp.componentId with
      | some cid => if cid ≠ 0 then lookupI itemMap cid else none
      | none => none }

/-- The Python sort key `(level ascending, name ascending)` of `get_spells`. -/
def spellLe (a b : SpellOut) : Prop :=
  a.level < b.level ∨ (a.level = b.level ∧ pyStrLe a.name b.name)

instance : DecidableRel spellLe := fun a b => by unfold spellLe; infer_instance

/-- `CharacterParser.get_spells`: build the inventory id→name map, shape the
spells, sort by `(level, name)`. -/
def get_spells (inventory : List InvItem) (spellsItem : List SpellEntry) : List SpellOut :=
  let itemMap := inventory.foldl
    (fun m it => dictInsertI m it.definition.id it.definition.name) []
  List.insertionSort spellLe (spellsItem.map (mkSpellOut itemMap))


/-- The extracted characteristics record. -/
structure CharacteristicsOut where
  gender : String
  faith : String
  age : Int
  hair : String
  eyes : String
  skin : String
  height : String
  weight : Int
deriving DecidableEq, Repr

/-- The extracted race record. -/
structure RaceOut where
  name : String
  languages : List String
  ability_bonuses : List (String × Int)
  skills : List String
deriving DecidableEq, Repr

/-- The in-memory tree produced by the loader, restricted to the subtrees the
extractors read (all paths under `data.`). -/
structure CharacterData where
  name : String := ""
  username : String := ""
  gender : String := ""
  faith : String := ""
  age : Int := 0
  hair : String := ""
  eyes : String := ""
  skin : String := ""
  height : String := ""
  weight : Int := 0
  stats : List Stat := []
  raceFullName : String := ""
  raceModifiers : List Modifier := []
  classModifiers : List Modifier := []
  backgroundModifiers : List Modifier := []
  featModifiers : List Modifier := []
  classes : List ClassInfo := []
  optionsClass : List OptionEntry := []
  feats : List FeatEntry := []
  featActions : List ActionEntry := []
  background : Option BackgroundData := none
  notesBackstory : Option String := none
  traits : TraitsData := {}
  inventory : List InvItem := []
  spellsItem : List SpellEntry := []
deriving DecidableEq, Repr

/-- `CharacterParser.get_name`. -/
def get_name (t : CharacterData) : String := t.name

/-- `CharacterParser.get_username`. -/
def get_username (t : CharacterData) : String := t.username

/-- `CharacterParser.get_characteristics`. -/
def get_characteristics (t : CharacterData) : CharacteristicsOut :=
  { gender := t.gender, faith := t.faith, age := t.age, hair := t.hair,
    eyes := t.eyes, skin := t.skin, height := t.height, weight := t.weight }

/-- `CharacterParser.get_race`. -/
def get_race (t : CharacterData) : RaceOut :=
  { name := t.raceFullName
    languages := get_languages t.raceModifiers
    ability_bonuses := get_racial_bonuses t.raceModifiers
    skills := get_racial_skills t.raceModifiers }

/-- `CharacterParser.get_classes`. -/
def get_classes (t : CharacterData) : List ClassOut :=
  t.classes.map (mkClassOut t.classModifiers t.optionsClass)

/-- The aggregate output record of `CharacterParser.parse`. -/
structure ParseOut where
  player_username : String
  character_name : String
  characteristics : CharacteristicsOut
  stats : List (String × Int)
  race : RaceOut
  classes : List ClassOut
  feats : List FeatOut
  background : Option BackgroundOut
  spells : List SpellOut
  inventory : List InvOut
deriving DecidableEq, Repr

/-- `CharacterParser.parse`: the only fallible step is the ability-score
extraction, whose error propagates. -/
def parse (t : CharacterData) : Except StatError ParseOut :=
  match get_stats t.stats with
  | .error e => .error e
  | .ok st =>
    .ok { player_username := get_username t
          character_name := get_name t
          characteristics := get_characteristics t
          stats := st
          race := get_race t
          classes := get_classes t
          feats := get_feats t.featModifiers t.featActions t.feats
          background := get_background t.background t.notesBackstory
            t.backgroundModifiers t.traits
          spells := get_spells t.inventory t.spellsItem
          inventory := get_inventory t.inventory }

/-! A state-passing view of the extractors over the loaded tree, used to
state that no operation mutates the tree: each operation is translated as a
read of the current tree followed by a pure computation, because every
statement of the source only reads `self.data`. -/

/-- Extraction computations over the mutable tree: they may fail (the
source raises) and return the possibly-updated tree. -/
def ExtractM (α : Type) : Type := CharacterData → Except StatError (α × CharacterData)

/-- Sequencing of extraction computations (monadic bind). -/
def andThen {α β : Type} (m : ExtractM α) (f : α → ExtractM β) : ExtractM β := fun t =>
  match m t with
  | .error e => .error e
  | .ok (a, t2) => f a t2

/-- A pure result; the tree is untouched. -/
def pureE {α : Type} (a : α) : ExtractM α := fun t => .ok (a, t)

/-- Read the current tree. -/
def readTree : ExtractM CharacterData := fun t => .ok (t, t)

/-- Run a fallible pure computation. -/
def liftExc {α : Type} (x : Except StatError α) : ExtractM α :=
  fun t => x.map (fun a => (a, t))

def get_nameM : ExtractM String :=
  andThen readTree fun t => pureE (get_name t)

def get_usernameM : ExtractM String :=
  andThen readTree fun t => pureE (get_username t)

def get_characteristicsM : ExtractM CharacteristicsOut :=
  andThen readTree fun t => pureE (get_characteristics t)

def get_statsM : ExtractM (List (String × Int)) :=
  andThen readTree fun t => liftExc (get_stats t.stats)

def get_raceM : ExtractM RaceOut :=
  andThen readTree fun t => pureE (get_race t)

def get_classesM : ExtractM (List ClassOut) :=
  andThen readTree fun t => pureE (get_classes t)

def get_featsM : ExtractM (List FeatOut) :=
  andThen readTree fun t => pureE (get_feats t.featModifiers t.featActions t.feats)

def get_backgroundM : ExtractM (Option BackgroundOut) :=
  andThen readTree fun t =>
    pureE (get_background t.background t.notesBackstory t.backgroundModifiers t.traits)

def get_spellsM : ExtractM (List SpellOut) :=
  andThen readTree fun t => pureE (get_spells t.inventory t.spellsItem)

def get_inventoryM : ExtractM (List InvOut) :=
  andThen readTree fun t => pureE (get_inventory t.inventory)

/-- `CharacterParser.parse` as the sequential composition of the extraction
operations, in the evaluation order of the source's dictionary literal. -/
def parseM : ExtractM ParseOut :=
  andThen get_usernameM fun username =>
  andThen get_nameM fun name =>
  andThen get_characteristicsM fun chars =>
  andThen get_statsM fun st =>
  andThen get_raceM fun race =>
  andThen get_classesM fun classes =>
  andThen get_featsM fun feats =>
  andThen get_backgroundM fun background =>
  andThen get_spellsM fun spells =>
  andThen get_inventoryM fun inventory =>
  pureE { player_username := username
          character_name := name
          characteristics := chars
          stats := st
          race := race
          classes := classes
          feats := feats
          background := background
          spells := spells
          inventory := inventory }

/-! Facts about `get_stats`. -/

theorem stat_names_none_iff (i : Int) : stat_names i = none ↔ (i < 1 ∨ 6 < i) := by
  unfold stat_names
  split_ifs <;> simp_all <;> omega

theorem stat_names_inj {i j : Int} (hi1 : 1 ≤ i) (hi2 : i ≤ 6) (hj1 : 1 ≤ j) (hj2 : j ≤ 6)
    (h : stat_names i = stat_names j) : i = j := by
  have hi : i = 1 ∨ i = 2 ∨ i = 3 ∨ i = 4 ∨ i = 5 ∨ i = 6 := by omega
  have hj : j = 1 ∨ j = 2 ∨ j = 3 ∨ j = 4 ∨ j = 5 ∨ j = 6 := by omega
  rcases hi with rfl | rfl | rfl | rfl | rfl | rfl <;>
    rcases hj with rfl | rfl | rfl | rfl | rfl | rfl <;>
      simp [stat_names] at h ⊢

theorem dictInsert_fresh {α : Type} (m : List (String × α)) (k : String) (v : α)
    (h : ∀ p ∈ m, p.1 ≠ k) : dictInsert m k v = m ++ [(k, v)] := by
  unfold dictInsert
  rw [if_neg]
  intro hany
  obtain ⟨p, hp, hpk⟩ := List.any_eq_true.mp hany
  exact h p hp (by simpa using hpk)

theorem get_stats_go_append :
    ∀ (stats : List Stat) (acc : List (String × Int)),
      (∀ s ∈ stats, stat_names s.id ≠ none) →
      (∀ s ∈ stats, ∀ p ∈ acc, p.1 ≠ (stat_names s.id).getD "") →
      (stats.map (fun s => (stat_names s.id).getD "")).Nodup →
      get_stats_go acc stats =
        .ok (acc ++ stats.map (fun s => ((stat_names s.id).getD "", s.value))) := by
  intro stats
  induction stats with
  | nil => intro acc _ _ _; simp [get_stats_go]
  | cons s rest ih =>
    intro acc hvalid hfresh hnodup
    obtain ⟨n, hn⟩ : ∃ n, stat_names s.id = some n := by
      cases hsn : stat_names s.id with
      | none => exact absurd hsn (hvalid s (List.mem_cons_self s rest))
      | some n => exact ⟨n, rfl⟩
    have hstep : get_stats_go acc (s :: rest) = get_stats_go (dictInsert acc n s.value) rest := by
      simp [get_stats_go, hn]
    rw [hstep]
    have hins : dictInsert acc n s.value = acc ++ [(n, s.value)] := by
      refine dictInsert_fresh acc n s.value ?_
      intro p hp hpk
      exact hfresh s (List.mem_cons_self s rest) p hp (by rw [hn]; exact hpk)
    rw [hins]
    rw [List.map_cons, List.nodup_cons] at hnodup
    have hrest := ih (acc ++ [(n, s.value)])
      (fun x hx => hvalid x (List.mem_cons_of_mem s hx))
      (by
        intro x hx p hp
        rcases List.mem_append.mp hp with hpa | hpn
        · exact hfresh x (List.mem_cons_of_mem s hx) p hpa
        · rcases List.mem_singleton.mp hpn with rfl
          show n ≠ (stat_names x.id).getD ""
          intro hcontra
          apply hnodup.1
          have hsn : (stat_names s.id).getD "" = n := by rw [hn]; rfl
          rw [hsn, hcontra]
          exact List.mem_map.mpr ⟨x, hx, rfl⟩)
      hnodup.2
    rw [hrest]
    simp [hn]

theorem get_stats_go_error :
    ∀ (stats : List Stat) (acc : List (String × Int)),
      (∃ s ∈ stats, stat_names s.id = none) →
      ∃ i, get_stats_go acc stats = .error (.unknownStatId i) ∧ stat_names i = none := by
  intro stats
  induction stats with
  | nil => intro acc h; obtain ⟨s, hs, _⟩ := h; cases hs
  | cons s rest ih =>
    intro acc h
    cases hn : stat_names s.id with
    | none =>
      refine ⟨s.id, ?_, hn⟩
      simp [get_stats_go, hn]
    | some n =>
      obtain ⟨s', hs', hs'n⟩ := h
      rcases List.mem_cons.mp hs' with rfl | hmem
      · rw [hn] at hs'n; cases hs'n
      · have hstep : get_stats_go acc (s :: rest) = get_stats_go (dictInsert acc n s.value) rest := by
          simp [get_stats_go, hn]
        rw [hstep]
        exact ih _ ⟨s', hmem, hs'n⟩

/-! Facts about `get_class_features` and `get_subclass_features`. -/

theorem gcf_names (lvl : Int) : ∀ fs : List ClassFeature,
    (get_class_features_go lvl fs).map FeatureOut.name =
      (fs.filter (fun f => decide (f.requiredLevel ≤ lvl) &&
        !(excluded_features.contains f.name))).map ClassFeature.name := by
  intro fs
  induction fs with
  | nil => rfl
  | cons f fs' ih =>
    by_cases h1 : f.requiredLevel ≤ lvl
    · by_cases h2 : f.name ∈ excluded_features
      · rw [get_class_features_go, if_neg (by simp [h2])]
        rw [ih, List.filter_cons]
        have hb : (decide (f.requiredLevel ≤ lvl) && !(excluded_features.contains f.name))
            = false := by
          simp [h2]
        rw [hb]
        simp
      · rw [get_class_features_go, if_pos ⟨h1, h2⟩, List.filter_cons]
        have hb : (decide (f.requiredLevel ≤ lvl) && !(excluded_features.contains f.name))
            = true := by
          simp [h1]
          simpa using h2
        rw [hb]
        simp [ih]
    · rw [get_class_features_go, if_neg (by simp [h1])]
      rw [ih, List.filter_cons]
      have hb : (decide (f.requiredLevel ≤ lvl) && !(excluded_features.contains f.name))
          = false := by
        simp [h1]
      rw [hb]
      simp

theorem gcf_no_excluded (lvl : Int) : ∀ fs : List ClassFeature,
    (get_class_features_go lvl fs).all (fun f => !(excluded_features.contains f.name))
      = true := by
  intro fs
  induction fs with
  | nil => rfl
  | cons f fs' ih =>
    by_cases h : f.requiredLevel ≤ lvl ∧ f.name ∉ excluded_features
    · rw [get_class_features_go, if_pos h]
      simp only [List.all_cons, ih, Bool.and_true]
      simpa using h.2
    · rw [get_class_features_go, if_neg h]
      exact ih

theorem gsf_names (lvl : Int) : ∀ fs : List ClassFeature,
    (get_subclass_features_go lvl fs).map FeatureOut.name =
      (fs.filter (fun f =>
        match echoGate f.name with
        | some g => decide (g ≤ lvl)
        | none => false)).map ClassFeature.name := by
  intro fs
  induction fs with
  | nil => rfl
  | cons f fs' ih =>
    cases hg : echoGate f.name with
    | none =>
      rw [get_subclass_features_go]
      simp [hg, List.filter_cons, ih]
    | some g =>
      by_cases hle : g ≤ lvl
      · rw [get_subclass_features_go]
        simp [hg, hle, List.filter_cons, ih]
      · rw [get_subclass_features_go]
        simp [hg, hle, List.filter_cons, ih]

/-! Facts about `get_inventory`. -/

theorem mkInvItem_name (item : InvItem) : (mkInvItem item).name = item.definition.name := rfl

theorem gi_no_donkey : ∀ (inv : List InvItem) (seen : List String),
    (get_inventory_go seen inv).all (fun i => !(i.name == "Donkey (or Mule)")) = true := by
  intro inv
  induction inv with
  | nil => intro seen; rfl
  | cons item rest ih =>
    intro seen
    by_cases hd : item.definition.name = "Donkey (or Mule)"
    · rw [get_inventory_go, if_pos hd]
      exact ih seen
    · rw [get_inventory_go, if_neg hd]
      by_cases hb : item.definition.name = "Backpack" ∧ item.definition.name ∈ seen
      · rw [if_pos hb]
        exact ih seen
      · rw [if_neg hb, List.all_cons]
        have hh : (!((mkInvItem item).name == "Donkey (or Mule)")) = true := by
          simp [mkInvItem_name, hd]
        rw [hh, Bool.true_and]
        exact ih _

theorem gi_bp_seen : ∀ (inv : List InvItem) (seen : List String), "Backpack" ∈ seen →
    (get_inventory_go seen inv).filter (fun i => i.name == "Backpack") = [] := by
  intro inv
  induction inv with
  | nil => intro seen _; rfl
  | cons item rest ih =>
    intro seen hseen
    by_cases hd : item.definition.name = "Donkey (or Mule)"
    · rw [get_inventory_go, if_pos hd]
      exact ih seen hseen
    · rw [get_inventory_go, if_neg hd]
      by_cases hbp : item.definition.name = "Backpack"
      · rw [if_pos ⟨hbp, hbp ▸ hseen⟩]
        exact ih seen hseen
      · rw [if_neg (fun hh => hbp hh.1), List.filter_cons]
        have hh : ((mkInvItem item).name == "Backpack") = false := by
          simp [mkInvItem_name, hbp]
        rw [hh]
        simp only [Bool.false_eq_true, if_false]
        exact ih _ (List.mem_cons_of_mem _ hseen)

theorem gi_bp_unseen : ∀ (inv : List InvItem) (seen : List String), "Backpack" ∉ seen →
    (get_inventory_go seen inv).filter (fun i => i.name == "Backpack") =
      ((inv.filter (fun it => it.definition.name == "Backpack")).take 1).map mkInvItem := by
  intro inv
  induction inv with
  | nil => intro seen _; rfl
  | cons item rest ih =>
    intro seen hseen
    by_cases hd : item.definition.name = "Donkey (or Mule)"
    · rw [get_inventory_go, if_pos hd]
      rw [List.filter_cons]
      have hh : (item.definition.name == "Backpack") = false := by
        simp [hd]
      rw [hh]
      simp only [Bool.false_eq_true, if_false]
      exact ih seen hseen
    · rw [get_inventory_go, if_neg hd]
      by_cases hbp : item.definition.name = "Backpack"
      · rw [if_neg (fun hh => hseen (hbp ▸ hh.2))]
        rw [List.filter_cons, List.filter_cons]
        have hh1 : ((mkInvItem item).name == "Backpack") = true := by
          simp [mkInvItem_name, hbp]
        have hh2 : (item.definition.name == "Backpack") = true := by
          simp [hbp]
        rw [hh1, hh2]
        simp only [if_true]
        rw [List.take_succ_cons, List.map_cons, List.take_zero]
        have hb2 : (get_inventory_go (item.definition.name :: seen) rest).filter
            (fun i => i.name == "Backpack") = [] := by
          refine gi_bp_seen rest _ ?_
          rw [hbp]
          exact List.mem_cons_self _ _
        rw [hb2]
        have : (rest.filter (fun it => it.definition.name == "Backpack")).take 0 = [] :=
          List.take_zero _
        simp
      · rw [if_neg (fun hh => hbp hh.1)]
        rw [List.filter_cons, List.filter_cons]
        have hh1 : ((mkInvItem item).name == "Backpack") = false := by
          simp [mkInvItem_name, hbp]
        have hh2 : (item.definition.name == "Backpack") = false := by
          simp [hbp]
        rw [hh1, hh2]
        simp only [Bool.false_eq_true, if_false]
        refine ih _ ?_
        intro hmem
        rcases List.mem_cons.mp hmem with hh | hh
        · exact hbp hh.symm
        · exact hseen hh

theorem gi_other : ∀ (inv : List InvItem) (seen : List String) (n : String),
    n ≠ "Donkey (or Mule)" → n ≠ "Backpack" →
    (get_inventory_go seen inv).filter (fun i => i.name == n) =
      (inv.filter (fun it => it.definition.name == n)).map mkInvItem := by
  intro inv
  induction inv with
  | nil => intro seen n _ _; rfl
  | cons item rest ih =>
    intro seen n hnd hnb
    by_cases hd : item.definition.name = "Donkey (or Mule)"
    · rw [get_inventory_go, if_pos hd]
      rw [List.filter_cons]
      have hh : (item.definition.name == n) = false := by
        simp [hd]
        exact fun hc => hnd hc.symm
      rw [hh]
      simp only [Bool.false_eq_true, if_false]
      exact ih seen n hnd hnb
    · rw [get_inventory_go, if_neg hd]
      by_cases hb : item.definition.name = "Backpack" ∧ item.definition.name ∈ seen
      · rw [if_pos hb]
        rw [List.filter_cons]
        have hh : (item.definition.name == n) = false := by
          simp [hb.1]
          exact fun hc => hnb hc.symm
        rw [hh]
        simp only [Bool.false_eq_true, if_false]
        exact ih seen n hnd hnb
      · rw [if_neg hb]
        rw [List.filter_cons, List.filter_cons]
        by_cases heq : item.definition.name = n
        · have hh1 : ((mkInvItem item).name == n) = true := by
            simp [mkInvItem_name, heq]
          have hh2 : (item.definition.name == n) = true := by
            simp [heq]
          rw [hh1, hh2]
          simp only [if_true]
          rw [List.map_cons, ih _ n hnd hnb]
        · have hh1 : ((mkInvItem item).name == n) = false := by
            simp [mkInvItem_name, heq]
          have hh2 : (item.definition.name == n) = false := by
            simp [heq]
          rw [hh1, hh2]
          simp only [Bool.false_eq_true, if_false]
          exact ih _ n hnd hnb

/-! Output-shape facts shared by the single-line invariants. -/

theorem get_stats_go_ok :
    ∀ (stats : List Stat) (acc : List (String × Int)),
      (∀ s ∈ stats, stat_names s.id ≠ none) →
      ∃ m, get_stats_go acc stats = .ok m := by
  intro stats
  induction stats with
  | nil => intro acc _; exact ⟨acc, rfl⟩
  | cons s rest ih =>
    intro acc hv
    obtain ⟨n, hn⟩ : ∃ n, stat_names s.id = some n := by
      cases hsn : stat_names s.id with
      | none => exact absurd hsn (hv s (List.mem_cons_self s rest))
      | some n => exact ⟨n, rfl⟩
    have hstep : get_stats_go acc (s :: rest) = get_stats_go (dictInsert acc n s.value) rest := by
      simp [get_stats_go, hn]
    rw [hstep]
    exact ih _ (fun x hx => hv x (List.mem_cons_of_mem s hx))

theorem stripL_subset {a : Char} {y : List Char} (h : a ∈ stripL y) : a ∈ y := by
  unfold stripL at h
  rw [List.mem_reverse] at h
  have h2 := (List.dropWhile_sublist (l := (y.dropWhile isPySpace).reverse)
    (p := isPySpace)).subset h
  rw [List.mem_reverse] at h2
  exact (List.dropWhile_sublist (l := y) (p := isPySpace)).subset h2

theorem jwpw_no_space {c : Char} (hc : isPySpace c = true) (hne : c ≠ ' ')
    (z : List Char) : c ∉ joinWords (pyWords z) := by
  intro hmem
  rcases jw_mem _ c hmem with h | ⟨w, hw, hcw⟩
  · exact hne h
  · have := (pyWords_good z w hw).2 c hcw
    rw [hc] at this
    cases this

theorem count_nl_clean (x : List Char) : (clean_text x).count '\n' = 0 := by
  unfold clean_text
  by_cases hx : x = []
  · rw [if_pos hx]
    rfl
  · rw [if_neg hx]
    exact List.count_eq_zero.mpr (jwpw_no_space (by decide) (by decide) _)

theorem count_cr_clean (x : List Char) : (clean_text x).count '\r' = 0 := by
  unfold clean_text
  by_cases hx : x = []
  · rw [if_pos hx]
    rfl
  · rw [if_neg hx]
    exact List.count_eq_zero.mpr (jwpw_no_space (by decide) (by decide) _)

theorem count_nl_uclean (x : List Char) : (_clean_text x).count '\n' = 0 := by
  unfold _clean_text
  by_cases hx : x = []
  · rw [if_pos hx]
    rfl
  · rw [if_neg hx]
    refine List.count_eq_zero.mpr ?_
    intro hmem
    exact jwpw_no_space (by decide) (by decide) _ (stripL_subset hmem)

/-- Whether a token/character item may appear in a vocabulary text. -/
def goodItem (toks : List (List Char)) : (List Char ⊕ Char) → Bool
  | .inl t => toks.contains t
  | .inr c => !(c == '<') && !(c == '&')

/-- Render a token/character item list as text. -/
def itemsText (items : List (List Char ⊕ Char)) : List Char :=
  (items.map (fun i => match i with
    | .inl t => t
    | .inr c => [c])).flatten

/-- Build a vocabulary text from an explicit token/character item list. -/
theorem vocab_mk (toks : List (List Char)) :
    ∀ items : List (List Char ⊕ Char),
      items.all (goodItem toks) = true → Vocab toks (itemsText items) := by
  intro items
  induction items with
  | nil => intro _; exact Vocab.nil
  | cons i items' ih =>
    intro h
    rw [List.all_cons, Bool.and_eq_true] at h
    have hrest := ih h.2
    have hi := h.1
    cases i with
    | inl t =>
      show Vocab toks (t ++ itemsText items')
      refine Vocab.tok ?_ hrest
      simpa [goodItem] using hi
    | inr c =>
      show Vocab toks ([c] ++ itemsText items')
      simp only [goodItem, Bool.and_eq_true, Bool.not_eq_true', beq_eq_false_iff_ne] at hi
      exact Vocab.chr hi.1 hi.2 hrest

/-! The claims. -/

/-- C1: for every input string containing only the documented tag/entity
vocabulary, applying the text normalization twice yields the same result as
applying it once, for both named cleaning operations: `clean_text` on its
vocabulary and `_clean_text` on its vocabulary. -/
theorem claim_C1 :
    (∀ x : List Char, Vocab cToks x → clean_text (clean_text x) = clean_text x) ∧
    (∀ x : List Char, Vocab uToks x → _clean_text (_clean_text x) = _clean_text x) :=
  ⟨fun _ hv => clean_text_idem hv, fun _ hv => uclean_text_idem hv⟩

/-- C1 witness: a concrete vocabulary input for each operation. -/
theorem claim_C1_witness :
    (Vocab cToks "<p>Hi &mdash; there</p>".data ∧
      clean_text (clean_text "<p>Hi &mdash; there</p>".data) =
        clean_text "<p>Hi &mdash; there</p>".data) ∧
    (Vocab uToks "Ready<br />Steady &nbsp;Go".data ∧
      _clean_text (_clean_text "Ready<br />Steady &nbsp;Go".data) =
        _clean_text "Ready<br />Steady &nbsp;Go".data) := by
  have h1 : Vocab cToks "<p>Hi &mdash; there</p>".data := by
    have h := vocab_mk cToks
      [.inl "<p>".data, .inr 'H', .inr 'i', .inr ' ', .inl "&mdash;".data,
       .inr ' ', .inr 't', .inr 'h', .inr 'e', .inr 'r', .inr 'e',
       .inl "</p>".data] (by decide)
    have he : itemsText
        [.inl "<p>".data, .inr 'H', .inr 'i', .inr ' ', .inl "&mdash;".data,
         .inr ' ', .inr 't', .inr 'h', .inr 'e', .inr 'r', .inr 'e',
         .inl "</p>".data] = "<p>Hi &mdash; there</p>".data := by decide
    rw [he] at h
    exact h
  have h2 : Vocab uToks "Ready<br />Steady &nbsp;Go".data := by
    have h := vocab_mk uToks
      [.inr 'R', .inr 'e', .inr 'a', .inr 'd', .inr 'y', .inl "<br />".data,
       .inr 'S', .inr 't', .inr 'e', .inr 'a', .inr 'd', .inr 'y', .inr ' ',
       .inl "&nbsp;".data, .inr 'G', .inr 'o'] (by decide)
    have he : itemsText
        [.inr 'R', .inr 'e', .inr 'a', .inr 'd', .inr 'y', .inl "<br />".data,
         .inr 'S', .inr 't', .inr 'e', .inr 'a', .inr 'd', .inr 'y', .inr ' ',
         .inl "&nbsp;".data, .inr 'G', .inr 'o'] = "Ready<br />Steady &nbsp;Go".data := by decide
    rw [he] at h
    exact h
  exact ⟨⟨h1, claim_C1.1 _ h1⟩, ⟨h2, claim_C1.2 _ h2⟩⟩

/-- C2 counterexample: on the input `a<br />b`, which contains the line-break
tag, `_clean_text` turns the tag into a plain space (and its output contains
no newline at all), while `clean_text` deletes the tag outright (its output
contains no space): the claimed newline/space behaviors occur for neither
operation. -/
theorem claim_C2_counterexample :
    _clean_text "a<br />b".data = "a b".data ∧
    (_clean_text "a<br />b".data).count '\n' = 0 ∧
    clean_text "a<br />b".data = "ab".data ∧
    (clean_text "a<br />b".data).count ' ' = 0 :=
  ⟨by decide, by decide, by decide, by decide⟩

/-- C2 (amended): the two cleaning operations do differ in line-break
treatment, but neither produces a newline: `_clean_text` replaces `<br />`
with a plain space while `clean_text` removes it entirely, and no output of
either operation ever contains a newline. -/
theorem claim_C2_amended :
    (∀ x : List Char, (_clean_text x).count '\n' = 0) ∧
    (∀ x : List Char, (clean_text x).count '\n' = 0) ∧
    _clean_text "a<br />b".data = "a b".data ∧
    clean_text "a<br />b".data = "ab".data :=
  ⟨count_nl_uclean, count_nl_clean, by decide, by decide⟩

/-- C10: for every input, the single-line cleaning operation `clean_text`
produces no carriage return, no newline, no two consecutive spaces, and no
leading or trailing whitespace; the empty (falsy) input yields exactly the
empty string. -/
theorem claim_C10 : ∀ x : List Char,
    (clean_text x).count '\r' = 0 ∧
    (clean_text x).count '\n' = 0 ∧
    noDouble (clean_text x) = true ∧
    headNoSpace (clean_text x) = true ∧
    lastNoSpace (clean_text x) = true ∧
    clean_text [] = [] := by
  intro x
  refine ⟨count_cr_clean x, count_nl_clean x, ?_, ?_, ?_, rfl⟩
  all_goals unfold clean_text
  all_goals by_cases hx : x = []
  · rw [if_pos hx]; rfl
  · rw [if_neg hx]
    exact jw_noDouble _ (fun w hw => pyWords_good _ w hw)
  · rw [if_pos hx]; rfl
  · rw [if_neg hx]
    unfold headNoSpace
    cases hh : (joinWords (pyWords (applyRules (cRulesMain ++ cRulesNl) x))).head? with
    | none => rfl
    | some a =>
      have := jw_head _ (fun w hw => pyWords_good _ w hw) a hh
      simp [this]
  · rw [if_pos hx]; rfl
  · rw [if_neg hx]
    unfold lastNoSpace
    cases hh : (joinWords (pyWords (applyRules (cRulesMain ++ cRulesNl) x))).getLast? with
    | none => rfl
    | some a =>
      have := jw_last _ (fun w hw => pyWords_good _ w hw) a hh
      simp [this]

/-- The spec's end-to-end ability-score example. -/
def exampleStats : List Stat :=
  [⟨1, 18⟩, ⟨2, 18⟩, ⟨3, 18⟩, ⟨4, 9⟩, ⟨5, 13⟩, ⟨6, 15⟩]

/-- C3: whenever every id of `data.stats` lies in 1..6 the extraction
succeeds; when the ids are distinct the returned mapping sends each entry's
table name to that entry's value, in input order; and the spec's end-to-end
example evaluates to exactly the documented mapping. -/
theorem claim_C3 :
    (∀ stats : List Stat, (∀ s ∈ stats, 1 ≤ s.id ∧ s.id ≤ 6) →
      ∃ m, get_stats stats = .ok m) ∧
    (∀ stats : List Stat, (∀ s ∈ stats, 1 ≤ s.id ∧ s.id ≤ 6) →
      (stats.map Stat.id).Nodup →
      get_stats stats = .ok (stats.map (fun s => ((stat_names s.id).getD "", s.value)))) ∧
    get_stats exampleStats = .ok
      [("strength", 18), ("dexterity", 18), ("constitution", 18),
       ("intelligence", 9), ("wisdom", 13), ("charisma", 15)] := by
  have hvalid : ∀ (stats : List Stat), (∀ s ∈ stats, 1 ≤ s.id ∧ s.id ≤ 6) →
      ∀ s ∈ stats, stat_names s.id ≠ none := by
    intro stats hv s hs hnone
    have := (stat_names_none_iff s.id).mp hnone
    have hr := hv s hs
    omega
  refine ⟨?_, ?_, rfl⟩
  · intro stats hv
    exact get_stats_go_ok stats [] (hvalid stats hv)
  · intro stats hv hnodup
    have hnames : (stats.map (fun s => (stat_names s.id).getD "")).Nodup := by
      have hmm : stats.map (fun s => (stat_names s.id).getD "") =
          (stats.map Stat.id).map (fun i => (stat_names i).getD "") := by
        rw [List.map_map]
        rfl
      rw [hmm]
      refine List.Nodup.map_on ?_ hnodup
      intro i hi j hj hij
      obtain ⟨si, hsi, rfl⟩ := List.mem_map.mp hi
      obtain ⟨sj, hsj, rfl⟩ := List.mem_map.mp hj
      have hri := hv si hsi
      have hrj := hv sj hsj
      refine stat_names_inj hri.1 hri.2 hrj.1 hrj.2 ?_
      obtain ⟨ni, hni⟩ : ∃ n, stat_names si.id = some n := by
        cases hc : stat_names si.id with
        | none => exact absurd hc (hvalid stats hv si hsi)
        | some n => exact ⟨n, rfl⟩
      obtain ⟨nj, hnj⟩ : ∃ n, stat_names sj.id = some n := by
        cases hc : stat_names sj.id with
        | none => exact absurd hc (hvalid stats hv sj hsj)
        | some n => exact ⟨n, rfl⟩
      rw [hni, hnj] at hij ⊢
      simp only [Option.getD_some] at hij
      rw [hij]
    have := get_stats_go_append stats [] (hvalid stats hv) (by intro s _ p hp; cases hp)
      hnames
    rw [get_stats, this, List.nil_append]

/-- C3 witness: the example input satisfies both hypotheses and the general
statement applies to it. -/
theorem claim_C3_witness :
    (∀ s ∈ exampleStats, 1 ≤ s.id ∧ s.id ≤ 6) ∧ (exampleStats.map Stat.id).Nodup ∧
    get_stats exampleStats =
      .ok (exampleStats.map (fun s => ((stat_names s.id).getD "", s.value))) :=
  ⟨by decide, by decide, claim_C3.2.1 exampleStats (by decide) (by decide)⟩

/-- C4: whenever some entry of `data.stats` has an id outside 1..6, the
extraction fails with the unknown-stat-id error (carrying an out-of-range id)
and returns no mapping. -/
theorem claim_C4 : ∀ stats : List Stat, (∃ s ∈ stats, s.id < 1 ∨ 6 < s.id) →
    ∃ i, get_stats stats = .error (.unknownStatId i) ∧ (i < 1 ∨ 6 < i) := by
  intro stats h
  obtain ⟨s, hs, hrange⟩ := h
  obtain ⟨i, hgo, hnone⟩ := get_stats_go_error stats []
    ⟨s, hs, (stat_names_none_iff s.id).mpr hrange⟩
  exact ⟨i, hgo, (stat_names_none_iff i).mp hnone⟩

/-- C4 witness: a concrete stats list with id 7 fails. -/
theorem claim_C4_witness :
    (∃ s ∈ [(⟨7, 10⟩ : Stat)], s.id < 1 ∨ 6 < s.id) ∧
    ∃ i, get_stats [(⟨7, 10⟩ : Stat)] = .error (.unknownStatId i) ∧ (i < 1 ∨ 6 < i) :=
  ⟨by decide, claim_C4 [⟨7, 10⟩] (by decide)⟩

/-- C5 counterexample: the claim says the subtype keeps its remaining
characters unchanged, predicting `DX` for the subtype `dX`; the code's
`str.capitalize` lowercases the rest, producing `Dx`. -/
theorem claim_C5_counterexample :
    get_languages [{ type := "language", subType := "dX" }] = ["Dx"] ∧
    ("Dx" : String) ≠ "DX" :=
  ⟨by decide, by decide⟩

/-- C5 (amended): the language extraction returns exactly the subtypes of
race modifiers with `type == "language"`, each transformed by Python
`capitalize` — first character uppercased and the remaining characters
lowercased — and the returned list is sorted lexicographically. -/
theorem claim_C5_amended : ∀ mods : List Modifier,
    (get_languages mods).Perm
      ((mods.filter (fun m => m.type == "language")).map (fun m => pyCapitalize m.subType)) ∧
    List.Pairwise pyStrLe (get_languages mods) :=
  fun _ => ⟨List.perm_insertionSort _ _, List.sorted_insertionSort _ _⟩

/-- C6: the class-feature extraction keeps exactly the features whose
required level is at or below the class level and whose name is not in the
fixed exclusion set, and no excluded name ever appears in its output. -/
theorem claim_C6 : ∀ ci : ClassInfo,
    (get_class_features ci).map FeatureOut.name =
      ((ci.definition.classFeatures.filter (fun f =>
        decide (f.requiredLevel ≤ ci.level) &&
          !(excluded_features.contains f.name))).map ClassFeature.name) ∧
    (get_class_features ci).all (fun f => !(excluded_features.contains f.name)) = true :=
  fun ci => ⟨gcf_names ci.level ci.definition.classFeatures,
    gcf_no_excluded ci.level ci.definition.classFeatures⟩

/-- The spec's end-to-end subclass example: a level-4 class entry whose
subclass carries the six Echo Knight features gated at 3, 3, 7, 10, 15, 18. -/
def echoExampleClass : ClassInfo :=
  { level := 4
    definition := { name := "Fighter", classFeatures := [] }
    subclassDefinition := some
      { name := "Echo Knight"
        classFeatures :=
          [⟨"Manifest Echo", 3, ""⟩, ⟨"Unleash Incarnation", 3, ""⟩,
           ⟨"Echo Avatar", 7, ""⟩, ⟨"Shadow Martyr", 10, ""⟩,
           ⟨"Reclaim Potential", 15, ""⟩, ⟨"Legion of One", 18, ""⟩] } }

/-- C7: a subclass feature in the fixed Echo Knight allow-list with gate L
appears in the extracted subclass-feature list exactly when the class level
is at least L; in particular the level-4 example yields exactly the two
level-3 features. -/
theorem claim_C7 :
    (∀ (ci : ClassInfo) (sd : SubclassDefinition) (f : ClassFeature) (L : Int),
      ci.subclassDefinition = some sd → f ∈ sd.classFeatures →
      echoGate f.name = some L →
      ((get_subclass_features ci).map FeatureOut.name).contains f.name =
        decide (L ≤ ci.level)) ∧
    (get_subclass_features echoExampleClass).map FeatureOut.name =
      ["Manifest Echo", "Unleash Incarnation"] := by
  constructor
  · intro ci sd f L hsd hf hg
    have hsub : get_subclass_features ci = get_subclass_features_go ci.level sd.classFeatures := by
      unfold get_subclass_features
      rw [hsd]
    rw [hsub, gsf_names]
    by_cases hL : L ≤ ci.level
    · rw [decide_eq_true hL]
      have hmem : f.name ∈ (sd.classFeatures.filter (fun f =>
          match echoGate f.name with
          | some g => decide (g ≤ ci.level)
          | none => false)).map ClassFeature.name := by
        refine List.mem_map.mpr ⟨f, ?_, rfl⟩
        refine List.mem_filter.mpr ⟨hf, ?_⟩
        rw [hg]
        exact decide_eq_true hL
      simpa using hmem
    · rw [decide_eq_false hL]
      have hnmem : f.name ∉ (sd.classFeatures.filter (fun f =>
          match echoGate f.name with
          | some g => decide (g ≤ ci.level)
          | none => false)).map ClassFeature.name := by
        intro hmem
        obtain ⟨f2, hf2, hname⟩ := List.mem_map.mp hmem
        have hfilt := (List.mem_filter.mp hf2).2
        cases hg2 : echoGate f2.name with
        | none => rw [hg2] at hfilt; cases hfilt
        | some g =>
          rw [hg2] at hfilt
          have hgL : g = L := by
            rw [hname] at hg2
            rw [hg2] at hg
            injection hg
          rw [hgL] at hfilt
          exact hL (of_decide_eq_true hfilt)
      simpa using hnmem
  · rfl

/-- C7 witness: the general gate statement applied to Manifest Echo in the
example class. -/
theorem claim_C7_witness :
    echoExampleClass.subclassDefinition = some
      { name := "Echo Knight"
        classFeatures :=
          [⟨"Manifest Echo", 3, ""⟩, ⟨"Unleash Incarnation", 3, ""⟩,
           ⟨"Echo Avatar", 7, ""⟩, ⟨"Shadow Martyr", 10, ""⟩,
           ⟨"Reclaim Potential", 15, ""⟩, ⟨"Legion of One", 18, ""⟩] } ∧
    echoGate "Manifest Echo" = some 3 ∧
    ((get_subclass_features echoExampleClass).map FeatureOut.name).contains "Manifest Echo" =
      decide ((3 : Int) ≤ echoExampleClass.level) :=
  ⟨rfl, rfl,
    claim_C7.1 echoExampleClass _ ⟨"Manifest Echo", 3, ""⟩ 3 rfl (by decide) rfl⟩

/-- A concrete inventory with both special items duplicated. -/
def exampleInv : List InvItem :=
  [{ definition := { name := "Backpack" } },
   { definition := { name := "Donkey (or Mule)" } },
   { definition := { name := "Rope" } },
   { definition := { name := "Backpack" } },
   { definition := { name := "Rope" } }]

/-- C8: the extracted inventory never contains `Donkey (or Mule)`; it
contains at most one `Backpack`, namely the image of the first `Backpack` of
the input; and every other name is kept once per input occurrence. -/
theorem claim_C8 :
    (∀ inv : List InvItem,
      (get_inventory inv).all (fun i => !(i.name == "Donkey (or Mule)")) = true) ∧
    (∀ inv : List InvItem,
      ((get_inventory inv).map InvOut.name).count "Backpack" ≤ 1) ∧
    (∀ inv : List InvItem,
      (get_inventory inv).filter (fun i => i.name == "Backpack") =
        ((inv.filter (fun it => it.definition.name == "Backpack")).take 1).map mkInvItem) ∧
    (∀ (inv : List InvItem) (n : String), n ≠ "Donkey (or Mule)" → n ≠ "Backpack" →
      (get_inventory inv).filter (fun i => i.name == n) =
        (inv.filter (fun it => it.definition.name == n)).map mkInvItem) := by
  have hbp : ∀ inv : List InvItem,
      (get_inventory inv).filter (fun i => i.name == "Backpack") =
        ((inv.filter (fun it => it.definition.name == "Backpack")).take 1).map mkInvItem :=
    fun inv => gi_bp_unseen inv [] (by simp)
  refine ⟨fun inv => gi_no_donkey inv [], ?_, hbp, fun inv n h1 h2 => gi_other inv [] n h1 h2⟩
  intro inv
  have hcount : ((get_inventory inv).map InvOut.name).count "Backpack" =
      ((get_inventory inv).filter (fun i => i.name == "Backpack")).length := by
    rw [List.count_eq_countP]
    rw [List.countP_map]
    rw [List.countP_eq_length_filter]
    rfl
  rw [hcount, hbp inv, List.length_map]
  calc ((inv.filter (fun it => it.definition.name == "Backpack")).take 1).length
      ≤ 1 := by
        rw [List.length_take]
        exact Nat.min_le_left _ _

/-- C8 witness: the other-names part applied to `Rope` in a concrete
inventory containing duplicates of all three names. -/
theorem claim_C8_witness :
    ("Rope" : String) ≠ "Donkey (or Mule)" ∧ ("Rope" : String) ≠ "Backpack" ∧
    (get_inventory exampleInv).filter (fun i => i.name == "Rope") =
      (exampleInv.filter (fun it => it.definition.name == "Rope")).map mkInvItem :=
  ⟨by decide, by decide, claim_C8.2.2.2 exampleInv "Rope" (by decide) (by decide)⟩

theorem extract_pure_state {α : Type} (f : CharacterData → α) :
    ∀ (t : CharacterData) (r : α) (t2 : CharacterData),
      andThen readTree (fun u => pureE (f u)) t = .ok (r, t2) → t2 = t := by
  intro t r t2 h
  have h2 : Except.ok (f t, t) = Except.ok (r, t2) := h
  exact (congrArg Prod.snd (Except.ok.inj h2)).symm

theorem parseM_eq (t : CharacterData) : parseM t = (parse t).map (fun p => (p, t)) := by
  cases hst : get_stats t.stats with
  | error e =>
    simp [parseM, parse, andThen, get_usernameM, get_nameM, get_characteristicsM,
      get_statsM, get_raceM, get_classesM, get_featsM, get_backgroundM, get_spellsM,
      get_inventoryM, readTree, pureE, liftExc, hst, Except.map]
  | ok st =>
    simp [parseM, parse, andThen, get_usernameM, get_nameM, get_characteristicsM,
      get_statsM, get_raceM, get_classesM, get_featsM, get_backgroundM, get_spellsM,
      get_inventoryM, readTree, pureE, liftExc, hst, Except.map]

/-- C9: every extractor operation and the aggregate parse leave the loaded
tree unchanged: whenever an operation run on tree `t` returns a result with
tree `t2`, then `t2 = t`.  (Operations are modelled in a state-passing style;
each one reads the tree and computes purely, as every statement of the source
only reads `self.data`.) -/
theorem claim_C9 :
    (∀ (t : CharacterData) (r : String) (t2 : CharacterData),
      get_nameM t = .ok (r, t2) → t2 = t) ∧
    (∀ (t : CharacterData) (r : String) (t2 : CharacterData),
      get_usernameM t = .ok (r, t2) → t2 = t) ∧
    (∀ (t : CharacterData) (r : CharacteristicsOut) (t2 : CharacterData),
      get_characteristicsM t = .ok (r, t2) → t2 = t) ∧
    (∀ (t : CharacterData) (r : List (String × Int)) (t2 : CharacterData),
      get_statsM t = .ok (r, t2) → t2 = t) ∧
    (∀ (t : CharacterData) (r : RaceOut) (t2 : CharacterData),
      get_raceM t = .ok (r, t2) → t2 = t) ∧
    (∀ (t : CharacterData) (r : List ClassOut) (t2 : CharacterData),
      get_classesM t = .ok (r, t2) → t2 = t) ∧
    (∀ (t : CharacterData) (r : List FeatOut) (t2 : CharacterData),
      get_featsM t = .ok (r, t2) → t2 = t) ∧
    (∀ (t : CharacterData) (r : Option BackgroundOut) (t2 : CharacterData),
      get_backgroundM t = .ok (r, t2) → t2 = t) ∧
    (∀ (t : CharacterData) (r : List SpellOut) (t2 : CharacterData),
      get_spellsM t = .ok (r, t2) → t2 = t) ∧
    (∀ (t : CharacterData) (r : List InvOut) (t2 : CharacterData),
      get_inventoryM t = .ok (r, t2) → t2 = t) ∧
    (∀ (t : CharacterData) (r : ParseOut) (t2 : CharacterData),
      parseM t = .ok (r, t2) → t2 = t) := by
  refine ⟨extract_pure_state _, extract_pure_state _, extract_pure_state _, ?_,
    extract_pure_state _, extract_pure_state _, extract_pure_state _,
    extract_pure_state _, extract_pure_state _, extract_pure_state _, ?_⟩
  · intro t r t2 h
    have h2 : (get_stats t.stats).map (fun a => (a, t)) = Except.ok (r, t2) := h
    cases hst : get_stats t.stats with
    | error e =>
      rw [hst] at h2
      simp [Except.map] at h2
    | ok m =>
      rw [hst] at h2
      simp only [Except.map, Except.ok.injEq, Prod.mk.injEq] at h2
      exact h2.2.symm
  · intro t r t2 h
    rw [parseM_eq] at h
    cases hp : parse t with
    | error e =>
      rw [hp] at h
      simp [Except.map] at h
    | ok p =>
      rw [hp] at h
      simp only [Except.map, Except.ok.injEq, Prod.mk.injEq] at h
      exact h.2.symm

/-- C9 witness: the name extraction applied to the empty tree. -/
theorem claim_C9_witness :
    get_nameM {} = .ok ("", ({} : CharacterData)) ∧ ({} : CharacterData) = {} :=
  ⟨rfl, claim_C9.1 {} "" {} rfl⟩
